import Mathlib

/-!
Verification of the compose module repository
(`compose/repository/module.go` of crust-server).

The Go code is shallowly embedded: table rows become lists of records,
`uint64` identifiers and rounded timestamps become `Nat`, nullable
timestamps become `Option Nat`, and the external collaborators that are
not part of the analysed sources (the `rh` query helpers, the Sonyflake
identifier generator and the row-level persistence primitives) are
modelled from the specification, as their doc comments state.  The Go
`UpdateFields` receives a slice of field pointers and writes through
those pointers; the embedding mirrors that by returning the updated
field list alongside the updated table state.
-/

namespace Crust

/-! ## String helpers (SQL LOWER, Go strings.TrimSpace, substring match) -/

/-- Modelled from the spec: SQL `LOWER` and Go `strings.ToLower`, embedded
as a character-wise lowering of the string. -/
def lowerStr (s : String) : String := String.mk (s.data.map Char.toLower)

/-- Whitespace test used by the trim helper. -/
def isWS (c : Char) : Bool := c == ' ' || c == '\t' || c == '\n' || c == '\r'

/-- Modelled from the spec: Go `strings.TrimSpace` (input-trimmed lookup keys),
embedded as dropping whitespace from both ends. -/
def trimStr (s : String) : String :=
  String.mk (((s.data.dropWhile isWS).reverse.dropWhile isWS).reverse)

/-- Split a character list at every occurrence of the separator. -/
def splitOnChar (sep : Char) : List Char → List (List Char)
  | [] => [[]]
  | c :: cs =>
    let rest := splitOnChar sep cs
    if c == sep then [] :: rest
    else
      match rest with
      | [] => [[c]]
      | r :: rs => (c :: r) :: rs

/-- Boolean list-prefix test on characters. -/
def listPrefixOf : List Char → List Char → Bool
  | [], _ => true
  | _ :: _, [] => false
  | a :: as, b :: bs => a == b && listPrefixOf as bs

/-- Boolean substring (infix) test on characters; models SQL
`LIKE` with a leading and trailing wildcard. -/
def listInfix (needle : List Char) : List Char → Bool
  | [] => listPrefixOf needle []
  | b :: bs => listPrefixOf needle (b :: bs) || listInfix needle bs

/-- Insert into a sorted list, by a boolean comparison: the ordering step
of the ORDER BY model. -/
def insertLe {α : Type} (le : α → α → Bool) (a : α) : List α → List α
  | [] => [a]
  | b :: bs => if le a b then a :: b :: bs else b :: insertLe le a bs

/-- Kernel-computable stable sort by a boolean comparison, modelling an SQL
ORDER BY clause. -/
def sortLe {α : Type} (le : α → α → Bool) : List α → List α
  | [] => []
  | a :: as => insertLe le a (sortLe le as)

/-! ## Field-side data model: rows of the `compose_module_field` table -/

/-- A row of the `compose_module_field` table, with the columns selected by
`module.FindFields`: id, rel_module, place, kind, name, label, options,
is_private, is_required, is_visible, is_multi, default_value,
created_at, updated_at, deleted_at. -/
@[ext]
structure ModuleField where
  id : Nat
  moduleID : Nat
  place : Nat
  kind : String
  name : String
  label : String
  options : String
  isPrivate : Bool
  isRequired : Bool
  isVisible : Bool
  isMulti : Bool
  defaultValue : String
  createdAt : Nat
  updatedAt : Option Nat
  deletedAt : Option Nat
deriving Repr, DecidableEq

/-- The persistent state seen by the field reconciler: the field table rows
plus the state of the external identifier generator. -/
@[ext]
structure FieldsDB where
  rows : List ModuleField
  nextID : Nat
deriving Repr, DecidableEq

/-- Modelled from the spec: `types.ModuleFieldSet.FindByID` (its source is not
under src/) returns the first field of the set whose ID equals the given
ID, or nothing when no field matches. -/
def findByID : List ModuleField → Nat → Option ModuleField
  | [], _ => none
  | f :: fs, fieldID => if f.id = fieldID then some f else findByID fs fieldID

/-- The `ORDER BY rel_module, place` comparison of `module.FindFields`. -/
def fieldLe (a b : ModuleField) : Bool :=
  Nat.blt a.moduleID b.moduleID || (a.moduleID == b.moduleID && Nat.ble a.place b.place)

/-- `module.FindFields`: all active (not soft-deleted) rows of the given
modules, ordered by (rel_module, place); an empty input yields an empty
result without touching storage. -/
def findFields (moduleIDs : List Nat) (rows : List ModuleField) : List ModuleField :=
  if moduleIDs.isEmpty then []
  else
    sortLe fieldLe (rows.filter (fun r => moduleIDs.contains r.moduleID && r.deletedAt == none))

/-- `module.deleteFieldByID`: DELETE FROM compose_module_field WHERE
rel_module = moduleID AND id = fieldID (a hard delete of the row). -/
def deleteFieldByID (moduleID fieldID : Nat) (rows : List ModuleField) : List ModuleField :=
  rows.filter (fun r => !(r.moduleID == moduleID && r.id == fieldID))

/-- Modelled from the spec: the persistence `Replace`/upsert primitive (not
under src/) inserts the row, or fully overwrites the existing row carrying
the same primary key (id is the primary key, so at most one row matches). -/
def replaceRow : List ModuleField → ModuleField → List ModuleField
  | [], f => [f]
  | r :: rs, f => if r.id = f.id then f :: rs else r :: replaceRow rs f

/-- Modelled from the spec: the external IDGenerator (`factory.Sonyflake`,
not under src/) issues globally unique identifiers; embedded as a strictly
increasing counter held in the persistent state. -/
def genID (db : FieldsDB) : Nat × FieldsDB :=
  (db.nextID, { db with nextID := db.nextID + 1 })

/-- The first phase of `module.UpdateFields`: walk the existing fields and
hard-delete every one whose ID does not appear in the desired set. -/
def deleteAbsent (moduleID : Nat) (ff : List ModuleField) (existing : List ModuleField)
    (rows : List ModuleField) : List ModuleField :=
  existing.foldl
    (fun acc e => if findByID ff e.id = none then deleteFieldByID moduleID e.id acc else acc)
    rows

/-- One iteration of the upsert loop of `module.UpdateFields`, for the
desired field `f` at index `idx`: carry identity data over from a matching
existing field (reverting name and kind when records exist, stamping
UpdatedAt otherwise), generate a fresh ID and CreatedAt for new fields, then
force ModuleID, Place and a cleared DeletedAt, and upsert the row. -/
def upsertStep (existing : List ModuleField) (moduleID : Nat) (hasRecords : Bool) (now : Nat)
    (idx : Nat) (f : ModuleField) (db : FieldsDB) : ModuleField × FieldsDB :=
  let f1 :=
    match findByID existing f.id with
    | some e =>
      let fc := { f with createdAt := e.createdAt }
      if hasRecords then { fc with name := e.name, kind := e.kind }
      else { fc with updatedAt := some now }
    | none => { f with id := 0 }
  let fdb :=
    if f1.id = 0 then
      let gen := genID db
      ({ f1 with id := gen.1, createdAt := now }, gen.2)
    else (f1, db)
  let f2 := { fdb.1 with moduleID := moduleID, place := idx, deletedAt := none }
  (f2, { fdb.2 with rows := replaceRow fdb.2.rows f2 })

/-- The upsert loop of `module.UpdateFields` over the desired fields,
starting at index `idx`; returns the written field values (the Go code
mutates the caller's fields through pointers) and the final state. -/
def upsertFields (existing : List ModuleField) (moduleID : Nat) (hasRecords : Bool) (now : Nat) :
    Nat → List ModuleField → FieldsDB → List ModuleField × FieldsDB
  | _, [], db => ([], db)
  | idx, f :: fs, db =>
    let r1 := upsertStep existing moduleID hasRecords now idx f db
    let r2 := upsertFields existing moduleID hasRecords now (idx + 1) fs r1.2
    (r1.1 :: r2.1, r2.2)

/-- `module.UpdateFields`: load the module's active fields, hard-delete the
ones absent from the desired list, then upsert every desired field in
order.  `now` stands for the rounded current time of this invocation.
Returns the written field values (the Go caller's slice of field pointers
is mutated in place) together with the new persistent state. -/
def updateFields (moduleID : Nat) (ff : List ModuleField) (hasRecords : Bool) (now : Nat)
    (db : FieldsDB) : List ModuleField × FieldsDB :=
  let existing := findFields [moduleID] db.rows
  let rows1 := deleteAbsent moduleID ff existing db.rows
  upsertFields existing moduleID hasRecords now 0 ff { db with rows := rows1 }

/-- Well-formedness of the field table: the identifier generator is ahead of
every stored row, identifiers are positive, and no two rows share an id
(id is the primary key). -/
def FieldsDB.WF (db : FieldsDB) : Prop :=
  0 < db.nextID ∧ (db.rows.map (fun r => r.id)).Nodup ∧
    ∀ r ∈ db.rows, 0 < r.id ∧ r.id < db.nextID

instance instDecWF (db : FieldsDB) : Decidable db.WF := by
  unfold FieldsDB.WF
  infer_instance

/-! ## Module-side data model: rows of the `compose_module` table -/

/-- A row of the `compose_module` table, with the declared columns
id, rel_namespace, handle, name, json, created_at, updated_at, deleted_at. -/
@[ext]
structure Module where
  id : Nat
  namespaceID : Nat
  handle : String
  name : String
  json : String
  createdAt : Nat
  updatedAt : Option Nat
  deletedAt : Option Nat
deriving Repr, DecidableEq

/-- `module.columns`: the declared column list of the module table. -/
def moduleColumns : List String :=
  ["id", "rel_namespace", "handle", "name", "json", "created_at", "updated_at", "deleted_at"]

/-- The errors surfaced by the module repository: the ModuleNotFound
sentinel, an invalid order specification, and a propagated storage
failure. -/
inductive RepoErr where
  | moduleNotFound
  | orderSpec (col : String)
  | storage (e : String)
deriving Repr, DecidableEq

/-- The zero value of the Module record, as left by a fetch that found no
row. -/
def emptyModule : Module :=
  { id := 0, namespaceID := 0, handle := "", name := "", json := "", createdAt := 0,
    updatedAt := none, deletedAt := none }

/-- Modelled from the spec: `rh.FetchOne` (not under src/) runs the composed
query and fills the destination with the first matching row, leaving the
zero value in place when no row matches; a storage failure propagates
unchanged. -/
def fetchOne (db : Except String (List Module)) (p : Module → Bool) : Except String Module :=
  match db with
  | .error e => .error e
  | .ok tbl => .ok ((tbl.filter p).headD emptyModule)

/-- `module.findOneBy`: query active rows restricted to the namespace and
the per-call key, fetch one row, and translate the zero value into the
ModuleNotFound error. -/
def findOneBy (db : Except String (List Module)) (namespaceID : Nat) (key : Module → Bool) :
    Except RepoErr Module :=
  match fetchOne db (fun m => m.deletedAt == none && key m && m.namespaceID == namespaceID) with
  | .error e => .error (.storage e)
  | .ok m => if m.id = 0 then .error .moduleNotFound else .ok m

/-- `module.FindByID`. -/
def moduleFindByID (db : Except String (List Module)) (namespaceID moduleID : Nat) :
    Except RepoErr Module :=
  findOneBy db namespaceID (fun m => m.id == moduleID)

/-- `module.FindByHandle`: LOWER(handle) compared against the lowered,
trimmed input. -/
def moduleFindByHandle (db : Except String (List Module)) (namespaceID : Nat) (handle : String) :
    Except RepoErr Module :=
  findOneBy db namespaceID (fun m => lowerStr m.handle == lowerStr (trimStr handle))

/-- `module.FindByName`: LOWER(name) compared against the lowered, trimmed
input. -/
def moduleFindByName (db : Except String (List Module)) (namespaceID : Nat) (nm : String) :
    Except RepoErr Module :=
  findOneBy db namespaceID (fun m => lowerStr m.name == lowerStr (trimStr nm))

/-- The filter record consumed and produced by `module.Find`. -/
structure ModuleFilter where
  NamespaceID : Nat := 0
  Query : String := ""
  Name : String := ""
  Handle : String := ""
  SortBy : String := ""
  Page : Nat := 0
  PerPage : Nat := 0
  IsReadable : Option (Module → Bool) := none
  Count : Nat := 0

/-- The column referenced by one comma-separated part of a sort
specification: the first whitespace-free token of the part. -/
def sortColumnOf (part : List Char) : String :=
  String.mk (((splitOnChar ' ' part).filter (fun w => !w.isEmpty)).headD [])

/-- Recursive worker of the order parser over the comma-separated parts. -/
def parseOrderParts : List (List Char) → List String → Except String (List (String × Bool))
  | [], _ => .ok []
  | p :: ps, cols =>
    let ws := (splitOnChar ' ' p).filter (fun w => !w.isEmpty)
    let col := String.mk (ws.headD [])
    if cols.contains col then
      match parseOrderParts ps cols with
      | .ok rest => .ok ((col, ws.contains "DESC".data) :: rest)
      | .error e => .error e
    else .error col

/-- Modelled from the spec: `rh.ParseOrder` (not under src/) splits the sort
specification into comma-separated (column, direction) parts and rejects
any part whose column is not in the given column list, reporting that
column. -/
def parseOrder (sort : String) (cols : List String) : Except String (List (String × Bool)) :=
  parseOrderParts (splitOnChar ',' sort.data) cols

/-- Whether a sort specification references a column outside the given
column list. -/
def sortMentionsUnknown (sort : String) (cols : List String) : Bool :=
  (splitOnChar ',' sort.data).any (fun p => !(cols.contains (sortColumnOf p)))

/-- Per-column comparison of two module rows, for the ORDER BY clause. -/
def colOrd (c : String) (a b : Module) : Ordering :=
  if c == "id" then compare a.id b.id
  else if c == "rel_namespace" then compare a.namespaceID b.namespaceID
  else if c == "handle" then compare a.handle b.handle
  else if c == "name" then compare a.name b.name
  else if c == "json" then compare a.json b.json
  else if c == "created_at" then compare a.createdAt b.createdAt
  else if c == "updated_at" then compare a.updatedAt b.updatedAt
  else if c == "deleted_at" then compare a.deletedAt b.deletedAt
  else Ordering.eq

/-- Lexicographic comparison along the parsed (column, descending) pairs. -/
def ordBy : List (String × Bool) → Module → Module → Ordering
  | [], _, _ => Ordering.eq
  | (c, desc) :: rest, a, b =>
    let o := colOrd c a b
    let o2 := if desc then o.swap else o
    match o2 with
    | Ordering.eq => ordBy rest a b
    | o3 => o3

/-- The boolean total preorder induced by the ORDER BY clause. -/
def moduleLe (obs : List (String × Bool)) (a b : Module) : Bool :=
  ordBy obs a b != Ordering.gt

/-- Apply the ORDER BY clause to a result set. -/
def sortModules (obs : List (String × Bool)) (tbl : List Module) : List Module :=
  sortLe (moduleLe obs) tbl

/-- The WHERE predicate composed by `module.Find`: active rows, the
namespace equality added only for a strictly positive NamespaceID, the
lowered substring search over name or handle, the lowered exact name and
handle matches, and the caller-supplied authorization predicate. -/
def moduleMatches (f : ModuleFilter) (m : Module) : Bool :=
  (m.deletedAt == none)
  && (if 0 < f.NamespaceID then m.namespaceID == f.NamespaceID else true)
  && (if f.Query ≠ "" then
        (listInfix (lowerStr f.Query).data (lowerStr m.name).data
          || listInfix (lowerStr f.Query).data (lowerStr m.handle).data)
      else true)
  && (if f.Name ≠ "" then lowerStr m.name == lowerStr f.Name else true)
  && (if f.Handle ≠ "" then lowerStr m.handle == lowerStr f.Handle else true)
  && (match f.IsReadable with
      | some p => p m
      | none => true)

/-- Modelled from the spec: `rh.Count` (not under src/) returns the total
number of rows matching the composed query. -/
def countRows (tbl : List Module) (p : Module → Bool) : Nat := (tbl.filter p).length

/-- Modelled from the spec: `rh.FetchPaged` (not under src/) fetches one
page of rows: with PerPage 10 and Page 2 it returns rows 11 to 20 of the
ordered result; a PerPage of zero fetches all rows. -/
def fetchPaged (rows : List Module) (page perPage : Nat) : List Module :=
  if perPage = 0 then rows
  else (rows.drop ((page - 1) * perPage)).take perPage

/-- The abstract storage operations performed by `module.Find` after query
composition, in order. -/
inductive DbOp where
  | countRows
  | fetchPage
deriving Repr, DecidableEq

/-- The Go multi-value return of `module.Find`: the result set, the
resolved filter, the error, plus the trace of storage operations
performed. -/
structure FindResult where
  set : List Module
  filter : ModuleFilter
  err : Option RepoErr
  ops : List DbOp

/-- The storage phase of `module.Find`, entered once the ordering has
parsed: count the matching rows, short-circuit on a zero count, and
otherwise fetch exactly one page of the ordered matching rows; the
resolved filter carries the count. -/
def moduleFindPage (tbl : List Module) (f : ModuleFilter) (obs : List (String × Bool)) :
    FindResult :=
  if countRows tbl (moduleMatches f) = 0 then
    { set := [], filter := { f with Count := countRows tbl (moduleMatches f) }, err := none,
      ops := [DbOp.countRows] }
  else
    { set := fetchPaged (sortModules obs (tbl.filter (moduleMatches f)))
        ({ f with Count := countRows tbl (moduleMatches f) } : ModuleFilter).Page
        ({ f with Count := countRows tbl (moduleMatches f) } : ModuleFilter).PerPage,
      filter := { f with Count := countRows tbl (moduleMatches f) }, err := none,
      ops := [DbOp.countRows, DbOp.fetchPage] }

/-- `module.Find`: default the sort to `id ASC`, parse the ordering against
the declared columns (failing before any storage access), then run the
count-first storage phase. -/
def moduleFind (tbl : List Module) (filter : ModuleFilter) : FindResult :=
  let f := if filter.SortBy = "" then { filter with SortBy := "id ASC" } else filter
  match parseOrder f.SortBy moduleColumns with
  | .error c => { set := [], filter := f, err := some (.orderSpec c), ops := [] }
  | .ok obs => moduleFindPage tbl f obs

/-- `module.DeleteByID`: UPDATE compose_module SET deleted_at = NOW() WHERE
rel_namespace = namespaceID AND id = moduleID; the affected-row count is
discarded, so a non-matching key is not an error. -/
def moduleDeleteByID (tbl : List Module) (namespaceID moduleID : Nat) (now : Nat) :
    List Module × Option RepoErr :=
  (tbl.map
      (fun m =>
        if m.namespaceID == namespaceID && m.id == moduleID then { m with deletedAt := some now }
        else m),
    none)

/-- First row with the given primary key, the view a keyed SQL access
sees. -/
def rowById : List ModuleField → Nat → Option ModuleField
  | [], _ => none
  | r :: rs, x => if r.id = x then some r else rowById rs x

/-- Rows of the module that survive the deletion phase of `UpdateFields`,
as a predicate on a row (valid for a table without duplicate ids). -/
def keepPred (m : Nat) (ff : List ModuleField) (r : ModuleField) : Bool :=
  !(r.moduleID == m && r.deletedAt == none && (findByID ff r.id).isNone)

/-- How many of the desired fields take the fresh-identifier branch of the
upsert loop. -/
def freshCount (existing : List ModuleField) : List ModuleField → Nat
  | [] => 0
  | f :: fs => (if findByID existing f.id = none then 1 else 0) + freshCount existing fs

/-- The value the upsert loop of `UpdateFields` writes for one desired
field `f`, given the snapshot of existing fields, the place index and the
identifier `nid` that would be generated were the field new. -/
def upsertExpected (existing : List ModuleField) (m : Nat) (hasRecords : Bool) (now nid place : Nat)
    (f : ModuleField) : ModuleField :=
  match findByID existing f.id with
  | some e =>
    if hasRecords then
      { f with createdAt := e.createdAt, name := e.name, kind := e.kind, moduleID := m,
               place := place, deletedAt := none }
    else
      { f with createdAt := e.createdAt, updatedAt := some now, moduleID := m, place := place,
               deletedAt := none }
  | none =>
    { f with id := nid, createdAt := now, moduleID := m, place := place, deletedAt := none }

/-- Two successive invocations of `UpdateFields` with the same desired
field slice and no intervening writes.  In Go the slice holds pointers and
the first call writes generated identifiers and carried-over timestamps
through them, so the second call observes the updated field values; the
embedding passes the first call's returned field list to the second
call. -/
def updateTwice (m : Nat) (hasRecords : Bool) (now1 now2 : Nat) (ff : List ModuleField)
    (db : FieldsDB) : (List ModuleField × FieldsDB) × (List ModuleField × FieldsDB) :=
  let u1 := updateFields m ff hasRecords now1 db
  (u1, updateFields m u1.1 hasRecords now2 u1.2)

/-- The last row value written for a given primary key by a sequence of
upserts, if any. -/
def lastWrite : List ModuleField → Nat → Option ModuleField
  | [], _ => none
  | w :: ws, x =>
    match lastWrite ws x with
    | some v => some v
    | none => if w.id = x then some w else none

/-- A concrete field value used to instantiate the theorems on concrete
inputs. -/
def sampleField : ModuleField :=
  { id := 0, moduleID := 0, place := 0, kind := "number", name := "Amount", label := "",
    options := "", isPrivate := false, isRequired := false, isVisible := true, isMulti := false,
    defaultValue := "", createdAt := 0, updatedAt := none, deletedAt := none }

/-- A concrete module row used to instantiate the theorems on concrete
inputs. -/
def sampleModule : Module :=
  { id := 9, namespaceID := 2, handle := "customer", name := "Customer List", json := "",
    createdAt := 3, updatedAt := none, deletedAt := none }

/-- A concrete persisted field (id 5) used to instantiate the theorems. -/
def sampleExisting : ModuleField :=
  { sampleField with id := 5, moduleID := 7, createdAt := 11 }

/-- Concrete persisted field f1 of the reconciliation example. -/
def sampleF1 : ModuleField :=
  { sampleField with id := 1, moduleID := 7, place := 0, name := "f1", createdAt := 11 }

/-- Concrete persisted field f2 of the reconciliation example. -/
def sampleF2 : ModuleField :=
  { sampleField with id := 2, moduleID := 7, place := 1, name := "f2", createdAt := 12 }

/-- Concrete persisted field f3 of the reconciliation example. -/
def sampleF3 : ModuleField :=
  { sampleField with id := 3, moduleID := 7, place := 2, name := "f3", createdAt := 13 }

/-! ## Basic lemmas about the helpers -/

instance instDecEqExcept {ε α : Type} [DecidableEq ε] [DecidableEq α] :
    DecidableEq (Except ε α) :=
  fun a b =>
    match a, b with
    | .ok x, .ok y => if h : x = y then .isTrue (by rw [h]) else .isFalse (by simp [h])
    | .ok _, .error _ => .isFalse (by simp)
    | .error _, .ok _ => .isFalse (by simp)
    | .error x, .error y => if h : x = y then .isTrue (by rw [h]) else .isFalse (by simp [h])

theorem insertLe_perm {α : Type} (le : α → α → Bool) (a : α) :
    ∀ l : List α, (insertLe le a l).Perm (a :: l) := by
  intro l
  induction l with
  | nil => simp [insertLe]
  | cons b bs ih =>
    by_cases hle : le a b = true
    · simp [insertLe, hle]
    · simp only [insertLe, hle, if_false, Bool.false_eq_true]
      exact (ih.cons b).trans (List.Perm.swap a b bs)

theorem sortLe_perm {α : Type} (le : α → α → Bool) :
    ∀ l : List α, (sortLe le l).Perm l := by
  intro l
  induction l with
  | nil => simp [sortLe]
  | cons a as ih =>
    exact (insertLe_perm le a (sortLe le as)).trans (ih.cons a)

theorem findByID_eq_none {ff : List ModuleField} {x : Nat} :
    findByID ff x = none ↔ ∀ f ∈ ff, f.id ≠ x := by
  induction ff with
  | nil => simp [findByID]
  | cons f fs ih =>
    by_cases h : f.id = x <;> simp [findByID, h, ih]

theorem findByID_eq_some {ff : List ModuleField} {x : Nat} {e : ModuleField}
    (h : findByID ff x = some e) : e ∈ ff ∧ e.id = x := by
  induction ff with
  | nil => simp [findByID] at h
  | cons f fs ih =>
    by_cases hf : f.id = x
    · simp [findByID, hf] at h
      subst h
      exact ⟨List.mem_cons_self f fs, hf⟩
    · simp [findByID, hf] at h
      rcases ih h with ⟨hm, hid⟩
      exact ⟨List.mem_cons_of_mem f hm, hid⟩

theorem findByID_of_mem {ff : List ModuleField} {e : ModuleField}
    (hn : (ff.map (fun r => r.id)).Nodup) (he : e ∈ ff) : findByID ff e.id = some e := by
  induction ff with
  | nil => simp at he
  | cons f fs ih =>
    simp only [List.map_cons, List.nodup_cons] at hn
    rcases List.mem_cons.mp he with h | h
    · subst h
      simp [findByID]
    · have hne : f.id ≠ e.id := by
        intro hid
        exact hn.1 (hid ▸ List.mem_map_of_mem (fun r => r.id) h)
      simp [findByID, hne, ih hn.2 h]

theorem rowById_eq_none {rows : List ModuleField} {x : Nat} :
    rowById rows x = none ↔ ∀ r ∈ rows, r.id ≠ x := by
  induction rows with
  | nil => simp [rowById]
  | cons r rs ih =>
    by_cases h : r.id = x <;> simp [rowById, h, ih]

theorem rowById_eq_some {rows : List ModuleField} {x : Nat} {e : ModuleField}
    (h : rowById rows x = some e) : e ∈ rows ∧ e.id = x := by
  induction rows with
  | nil => simp [rowById] at h
  | cons r rs ih =>
    by_cases hf : r.id = x
    · simp [rowById, hf] at h
      subst h
      exact ⟨List.mem_cons_self r rs, hf⟩
    · simp [rowById, hf] at h
      rcases ih h with ⟨hm, hid⟩
      exact ⟨List.mem_cons_of_mem r hm, hid⟩

theorem rowById_of_mem {rows : List ModuleField} {e : ModuleField}
    (hn : (rows.map (fun r => r.id)).Nodup) (he : e ∈ rows) : rowById rows e.id = some e := by
  induction rows with
  | nil => simp at he
  | cons r rs ih =>
    simp only [List.map_cons, List.nodup_cons] at hn
    rcases List.mem_cons.mp he with h | h
    · subst h
      simp [rowById]
    · have hne : r.id ≠ e.id := by
        intro hid
        exact hn.1 (hid ▸ List.mem_map_of_mem (fun r => r.id) h)
      simp [rowById, hne, ih hn.2 h]

theorem rowById_isSome_of_mem {rows : List ModuleField} {r : ModuleField} (h : r ∈ rows) :
    rowById rows r.id ≠ none := by
  intro hn
  exact rowById_eq_none.mp hn r h rfl

theorem mem_iff_rowById {rows : List ModuleField} {r : ModuleField}
    (hn : (rows.map (fun v => v.id)).Nodup) : r ∈ rows ↔ rowById rows r.id = some r := by
  constructor
  · exact rowById_of_mem hn
  · intro h
    exact (rowById_eq_some h).1

theorem id_inj_of_nodup {rows : List ModuleField} {a b : ModuleField}
    (hn : (rows.map (fun r => r.id)).Nodup) (ha : a ∈ rows) (hb : b ∈ rows)
    (hid : a.id = b.id) : a = b := by
  have h1 := rowById_of_mem hn ha
  have h2 := rowById_of_mem hn hb
  rw [hid] at h1
  rw [h1] at h2
  exact Option.some.inj h2

theorem lastWrite_eq_some {ws : List ModuleField} {x : Nat} {v : ModuleField}
    (h : lastWrite ws x = some v) : v ∈ ws ∧ v.id = x := by
  induction ws with
  | nil => simp [lastWrite] at h
  | cons w ws ih =>
    simp only [lastWrite] at h
    cases hl : lastWrite ws x with
    | some u =>
      rw [hl] at h
      cases h
      rcases ih hl with ⟨hm, hid⟩
      exact ⟨List.mem_cons_of_mem w hm, hid⟩
    | none =>
      rw [hl] at h
      by_cases hw : w.id = x
      · simp [hw] at h
        subst h
        exact ⟨List.mem_cons_self w ws, hw⟩
      · simp [hw] at h

theorem lastWrite_eq_none {ws : List ModuleField} {x : Nat} :
    lastWrite ws x = none ↔ ∀ w ∈ ws, w.id ≠ x := by
  induction ws with
  | nil => simp [lastWrite]
  | cons w ws ih =>
    simp only [lastWrite]
    cases hl : lastWrite ws x with
    | some u =>
      simp only [List.mem_cons]
      constructor
      · intro h
        exact absurd h (by simp)
      · intro h
        rcases lastWrite_eq_some hl with ⟨hm, hid⟩
        exact absurd hid (h u (Or.inr hm))
    | none =>
      have htail := ih.mp hl
      by_cases hw : w.id = x
      · constructor
        · intro hcon
          rw [if_pos hw] at hcon
          cases hcon
        · intro hall
          exact absurd hw (hall w (List.mem_cons_self w ws))
      · rw [if_neg hw]
        constructor
        · intro _ v hv
          rcases List.mem_cons.mp hv with h | h
          · rw [h]
            exact hw
          · exact htail v h
        · intro _
          rfl

theorem rowById_replaceRow {rows : List ModuleField} {f : ModuleField} {x : Nat} :
    rowById (replaceRow rows f) x = if f.id = x then some f else rowById rows x := by
  induction rows with
  | nil =>
    by_cases h : f.id = x <;> simp [replaceRow, rowById, h]
  | cons r rs ih =>
    by_cases hr : r.id = f.id
    · by_cases hx : f.id = x
      · simp [replaceRow, hr, rowById, hx]
      · have hrx : ¬ r.id = x := by rw [hr]; exact hx
        simp [replaceRow, hr, rowById, hx, hrx]
    · by_cases hrx : r.id = x
      · have hfx : ¬ f.id = x := by
          intro h
          exact hr (by rw [hrx, h])
        have hxf : ¬ x = f.id := fun h => hfx h.symm
        simp [replaceRow, hr, rowById, hrx, hfx, hxf]
      · simp [replaceRow, hr, rowById, hrx, ih]

theorem mem_replaceRow_self {rows : List ModuleField} {f : ModuleField} :
    f ∈ replaceRow rows f := by
  induction rows with
  | nil => simp [replaceRow]
  | cons r rs ih =>
    by_cases hr : r.id = f.id <;> simp [replaceRow, hr, ih]

theorem mem_replaceRow_of_ne {rows : List ModuleField} {f r : ModuleField}
    (hm : r ∈ rows) (hne : r.id ≠ f.id) : r ∈ replaceRow rows f := by
  induction rows with
  | nil => simp at hm
  | cons a rs ih =>
    by_cases ha : a.id = f.id
    · rcases List.mem_cons.mp hm with h | h
      · exact absurd (h ▸ ha) hne
      · simp [replaceRow, ha, h]
    · rcases List.mem_cons.mp hm with h | h
      · simp [replaceRow, ha, h]
      · simp [replaceRow, ha, ih h]

theorem mem_of_mem_replaceRow {rows : List ModuleField} {f r : ModuleField}
    (hm : r ∈ replaceRow rows f) : r = f ∨ r ∈ rows := by
  induction rows with
  | nil => simpa [replaceRow] using hm
  | cons a rs ih =>
    by_cases ha : a.id = f.id
    · simp [replaceRow, ha] at hm
      rcases hm with h | h
      · exact Or.inl h
      · exact Or.inr (List.mem_cons_of_mem a h)
    · simp [replaceRow, ha] at hm
      rcases hm with h | h
      · exact Or.inr (by simp [h])
      · rcases ih h with h2 | h2
        · exact Or.inl h2
        · exact Or.inr (List.mem_cons_of_mem a h2)

theorem ids_replaceRow {rows : List ModuleField} {f : ModuleField} {x : Nat}
    (hm : x ∈ (replaceRow rows f).map (fun r => r.id)) :
    x = f.id ∨ x ∈ rows.map (fun r => r.id) := by
  rcases List.mem_map.mp hm with ⟨r, hr, hid⟩
  rcases mem_of_mem_replaceRow hr with h | h
  · exact Or.inl (by rw [← hid, h])
  · exact Or.inr (hid ▸ List.mem_map_of_mem (fun r => r.id) h)

theorem replaceRow_nodup {rows : List ModuleField} {f : ModuleField}
    (hn : (rows.map (fun r => r.id)).Nodup) :
    ((replaceRow rows f).map (fun r => r.id)).Nodup := by
  induction rows with
  | nil => simp [replaceRow]
  | cons a rs ih =>
    simp only [List.map_cons, List.nodup_cons] at hn
    by_cases ha : a.id = f.id
    · simp only [replaceRow, ha, if_true, List.map_cons, List.nodup_cons]
      exact ⟨by rw [← ha]; exact hn.1, hn.2⟩
    · simp only [replaceRow, ha, if_false, List.map_cons, List.nodup_cons]
      refine ⟨fun hmem => ?_, ih hn.2⟩
      rcases ids_replaceRow hmem with h | h
      · exact ha h
      · exact hn.1 h

theorem rowById_foldl_replace {x : Nat} :
    ∀ (ws rows : List ModuleField),
      rowById (ws.foldl replaceRow rows) x =
        match lastWrite ws x with
        | some v => some v
        | none => rowById rows x := by
  intro ws
  induction ws with
  | nil => intro rows; simp [lastWrite]
  | cons w ws ih =>
    intro rows
    simp only [List.foldl_cons, lastWrite]
    rw [ih (replaceRow rows w)]
    cases hl : lastWrite ws x with
    | some v => simp
    | none =>
      by_cases hw : w.id = x <;> simp [rowById_replaceRow, hw]

theorem foldl_replace_nodup {ws rows : List ModuleField}
    (hn : (rows.map (fun r => r.id)).Nodup) :
    ((ws.foldl replaceRow rows).map (fun r => r.id)).Nodup := by
  induction ws generalizing rows with
  | nil => simpa using hn
  | cons w ws ih => exact ih (replaceRow_nodup hn)

theorem ids_foldl_replace {ws : List ModuleField} {x : Nat} :
    ∀ rows : List ModuleField, x ∈ ((ws.foldl replaceRow rows).map (fun r => r.id)) →
      (∃ w ∈ ws, w.id = x) ∨ x ∈ rows.map (fun r => r.id) := by
  induction ws with
  | nil =>
    intro rows hm
    exact Or.inr (by simpa using hm)
  | cons w ws ih =>
    intro rows hm
    rcases ih (replaceRow rows w) (by simpa using hm) with h | h
    · rcases h with ⟨v, hv, hid⟩
      exact Or.inl ⟨v, List.mem_cons_of_mem w hv, hid⟩
    · rcases ids_replaceRow h with h2 | h2
      · exact Or.inl ⟨w, List.mem_cons_self w ws, h2.symm⟩
      · exact Or.inr h2

theorem foldl_replace_append {ws : List ModuleField} :
    ∀ rows : List ModuleField, (∀ w ∈ ws, ∀ r ∈ rows, r.id ≠ w.id) →
      (ws.map (fun r => r.id)).Nodup → ws.foldl replaceRow rows = rows ++ ws := by
  induction ws with
  | nil =>
    intro rows _ _
    simp
  | cons w ws ih =>
    intro rows hdisj hwn
    simp only [List.foldl_cons]
    have happ : replaceRow rows w = rows ++ [w] := by
      clear ih hwn
      induction rows with
      | nil => simp [replaceRow]
      | cons a rs ihr =>
        have ha : a.id ≠ w.id := hdisj w (List.mem_cons_self w ws) a (List.mem_cons_self a rs)
        simp only [replaceRow, ha, if_false, List.cons_append, List.cons.injEq, true_and]
        exact ihr (fun v hv r hr => hdisj v hv r (List.mem_cons_of_mem a hr))
    rw [happ]
    simp only [List.map_cons, List.nodup_cons] at hwn
    rw [ih (rows ++ [w]) ?_ hwn.2]
    · simp
    · intro v hv r hr
      rcases List.mem_append.mp hr with h | h
      · exact hdisj v (List.mem_cons_of_mem w hv) r h
      · have : r = w := by simpa using h
        subst this
        intro hid
        exact hwn.1 (hid ▸ List.mem_map_of_mem (fun r => r.id) hv)

theorem mem_foldl_replace {ws : List ModuleField} {r : ModuleField} :
    ∀ rows : List ModuleField, r ∈ ws.foldl replaceRow rows → r ∈ ws ∨ r ∈ rows := by
  induction ws with
  | nil =>
    intro rows hm
    exact Or.inr (by simpa using hm)
  | cons w ws ih =>
    intro rows hm
    rcases ih (replaceRow rows w) (by simpa using hm) with h | h
    · exact Or.inl (List.mem_cons_of_mem w h)
    · rcases mem_of_mem_replaceRow h with h2 | h2
      · exact Or.inl (by simp [h2])
      · exact Or.inr h2

theorem lastWrite_isSome_of_mem {ws : List ModuleField} {w : ModuleField} {x : Nat}
    (hw : w ∈ ws) (hid : w.id = x) : ∃ v : ModuleField, lastWrite ws x = some v := by
  rcases hl : lastWrite ws x with _ | v
  · exact absurd hid (lastWrite_eq_none.mp hl w hw)
  · exact ⟨v, rfl⟩

theorem lastWrite_map_of_id {g : ModuleField → ModuleField} (hg : ∀ f, (g f).id = f.id)
    {x : Nat} : ∀ ws : List ModuleField, lastWrite (ws.map g) x = (lastWrite ws x).map g := by
  intro ws
  induction ws with
  | nil => rfl
  | cons w ws ih =>
    simp only [List.map_cons, lastWrite, ih]
    cases hl : lastWrite ws x with
    | some v => simp
    | none =>
      simp only [Option.map_none]
      rw [hg w]
      by_cases hw : w.id = x <;> simp [hw]

theorem replaceRow_eq_map {w : ModuleField} :
    ∀ rows : List ModuleField, (rows.map (fun r => r.id)).Nodup →
      (∃ r ∈ rows, r.id = w.id) →
      replaceRow rows w = rows.map (fun r => if r.id = w.id then w else r) := by
  intro rows
  induction rows with
  | nil =>
    intro _ hex
    simp at hex
  | cons a rs ih =>
    intro hn hex
    simp only [List.map_cons, List.nodup_cons] at hn
    by_cases ha : a.id = w.id
    · simp only [replaceRow, ha, if_pos rfl, List.map_cons, if_true]
      have hmap : rs.map (fun r => if r.id = w.id then w else r) = rs.map (fun r => r) := by
        apply List.map_congr_left
        intro r hr
        have : r.id ≠ w.id := by
          intro hid
          exact hn.1 (by rw [ha, ← hid]; exact List.mem_map_of_mem (fun v => v.id) hr)
        simp [this]
      rw [hmap, List.map_id']
    · simp only [replaceRow, ha, if_false, List.map_cons]
      rcases hex with ⟨r, hr, hrid⟩
      rcases List.mem_cons.mp hr with h2 | h2
      · exact absurd (h2 ▸ hrid) ha
      · rw [ih hn.2 ⟨r, h2, hrid⟩]

theorem foldl_replace_eq_map {ws : List ModuleField} :
    ∀ rows : List ModuleField, (rows.map (fun r => r.id)).Nodup →
      (∀ w ∈ ws, ∃ r ∈ rows, r.id = w.id) →
      ws.foldl replaceRow rows =
        rows.map (fun r =>
          match lastWrite ws r.id with
          | some v => v
          | none => r) := by
  induction ws with
  | nil =>
    intro rows _ _
    simp only [List.foldl_nil, lastWrite]
    exact (List.map_id rows).symm
  | cons w ws ih =>
    intro rows hn hpres
    simp only [List.foldl_cons]
    have hw : ∃ r ∈ rows, r.id = w.id := hpres w (List.mem_cons_self w ws)
    rw [replaceRow_eq_map rows hn hw]
    have hids : (rows.map (fun r => if r.id = w.id then w else r)).map (fun r => r.id) =
        rows.map (fun r => r.id) := by
      rw [List.map_map]
      apply List.map_congr_left
      intro r _
      by_cases hr : r.id = w.id <;> simp [hr]
    rw [ih (rows.map (fun r => if r.id = w.id then w else r)) (by rw [hids]; exact hn) ?_]
    · rw [List.map_map]
      apply List.map_congr_left
      intro r _
      simp only [Function.comp]
      by_cases hr : r.id = w.id
      · rw [if_pos hr]
        simp only [lastWrite, hr]
        cases hl : lastWrite ws w.id with
        | some v => simp [hl]
        | none => simp [hl]
      · rw [if_neg hr]
        simp only [lastWrite]
        cases hl : lastWrite ws r.id with
        | some v => simp [hl]
        | none =>
          have hw2 : ¬ w.id = r.id := fun hx => hr hx.symm
          simp [hl, hw2]
    · intro v hv
      rcases hpres v (List.mem_cons_of_mem w hv) with ⟨r, hr, hrid⟩
      refine ⟨if r.id = w.id then w else r, List.mem_map_of_mem _ hr, ?_⟩
      by_cases h2 : r.id = w.id
      · rw [if_pos h2]
        omega
      · rw [if_neg h2]
        exact hrid

/-! ## Lemmas about FindFields and the deletion phase -/

theorem mem_findFields {rows : List ModuleField} {m : Nat} {r : ModuleField} :
    r ∈ findFields [m] rows ↔ r ∈ rows ∧ r.moduleID = m ∧ r.deletedAt = none := by
  unfold findFields
  simp only [List.isEmpty_cons, if_false, Bool.false_eq_true]
  rw [(sortLe_perm fieldLe _).mem_iff, List.mem_filter]
  simp [List.contains, and_assoc]

theorem findFields_sub {rows : List ModuleField} {m : Nat} :
    ∀ r ∈ findFields [m] rows, r ∈ rows := fun _ hr => (mem_findFields.mp hr).1

theorem findFields_nodup_ids {rows : List ModuleField} {m : Nat}
    (hn : (rows.map (fun r => r.id)).Nodup) :
    ((findFields [m] rows).map (fun r => r.id)).Nodup := by
  unfold findFields
  simp only [List.isEmpty_cons, if_false, Bool.false_eq_true]
  have hperm := (sortLe_perm fieldLe
    (rows.filter (fun r => [m].contains r.moduleID && r.deletedAt == none))).map
    (fun r => r.id)
  refine hperm.nodup_iff.mpr ?_
  exact ((List.filter_sublist rows).map (fun r => r.id)).nodup hn

theorem findFields_eq_nil {rows : List ModuleField} {m : Nat} :
    findFields [m] rows = [] ↔ ∀ r ∈ rows, r.moduleID = m → r.deletedAt ≠ none := by
  constructor
  · intro h r hr hm hd
    have : r ∈ findFields [m] rows := mem_findFields.mpr ⟨hr, hm, hd⟩
    simp [h] at this
  · intro h
    rcases he : findFields [m] rows with _ | ⟨r, rest⟩
    · rfl
    · have : r ∈ findFields [m] rows := by rw [he]; exact List.mem_cons_self r rest
      rcases mem_findFields.mp this with ⟨hr, hm, hd⟩
      exact absurd hd (h r hr hm)

theorem deleteAbsent_eq_filter {m : Nat} {ff : List ModuleField} :
    ∀ (es rows : List ModuleField),
      deleteAbsent m ff es rows =
        rows.filter
          (fun r =>
            !(r.moduleID == m && es.any (fun e => e.id == r.id && (findByID ff e.id).isNone))) := by
  intro es
  induction es with
  | nil =>
    intro rows
    simp [deleteAbsent]
  | cons e es ih =>
    intro rows
    have hstep :
        deleteAbsent m ff (e :: es) rows =
          deleteAbsent m ff es
            (if findByID ff e.id = none then deleteFieldByID m e.id rows else rows) := rfl
    rw [hstep]
    by_cases h : findByID ff e.id = none
    · rw [if_pos h, ih]
      unfold deleteFieldByID
      rw [List.filter_filter]
      apply List.filter_congr
      intro r _
      have hiso : (findByID ff e.id).isNone = true := by simp [h]
      have hbb : (e.id == r.id) = (r.id == e.id) := by
        by_cases hx : e.id = r.id
        · simp [hx]
        · have hx2 : ¬ r.id = e.id := fun hy => hx hy.symm
          simp [hx, hx2]
      simp only [List.any_cons]
      rw [hiso, hbb]
      cases r.moduleID == m <;> cases r.id == e.id <;>
        cases es.any (fun v => v.id == r.id && (findByID ff v.id).isNone) <;> rfl
    · rw [if_neg h, ih]
      apply List.filter_congr
      intro r _
      have hiso : (findByID ff e.id).isNone = false := by
        rcases ho : findByID ff e.id with _ | v
        · exact absurd ho h
        · rfl
      simp only [List.any_cons]
      rw [hiso]
      cases r.moduleID == m <;> cases e.id == r.id <;>
        cases es.any (fun v => v.id == r.id && (findByID ff v.id).isNone) <;> rfl

theorem deleteAbsent_findFields {m : Nat} {ff rows : List ModuleField}
    (hn : (rows.map (fun r => r.id)).Nodup) :
    deleteAbsent m ff (findFields [m] rows) rows = rows.filter (keepPred m ff) := by
  rw [deleteAbsent_eq_filter]
  apply List.filter_congr
  intro r hr
  unfold keepPred
  congr 1
  by_cases hM : r.moduleID = m
  · simp only [hM, beq_self_eq_true, Bool.true_and]
    rcases hd : r.deletedAt with _ | d
    · by_cases hf : (findByID ff r.id).isNone
      · have hmem : r ∈ findFields [m] rows := mem_findFields.mpr ⟨hr, hM, hd⟩
        have : (findFields [m] rows).any (fun e => e.id == r.id && (findByID ff e.id).isNone) =
            true := by
          rw [List.any_eq_true]
          exact ⟨r, hmem, by simp [hf]⟩
        simp [this, hf]
      · have : (findFields [m] rows).any (fun e => e.id == r.id && (findByID ff e.id).isNone) =
            false := by
          rw [List.any_eq_false]
          intro e he
          rcases mem_findFields.mp he with ⟨her, _, _⟩
          by_cases hid : e.id = r.id
          · have : e = r := id_inj_of_nodup hn her hr hid
            subst this
            simp [Bool.eq_false_iff.mpr hf]
          · simp [hid]
        simp [this, Bool.eq_false_iff.mpr hf]
    · have : (findFields [m] rows).any (fun e => e.id == r.id && (findByID ff e.id).isNone) =
          false := by
        rw [List.any_eq_false]
        intro e he
        rcases mem_findFields.mp he with ⟨her, _, hed⟩
        by_cases hid : e.id = r.id
        · have : e = r := id_inj_of_nodup hn her hr hid
          subst this
          simp [hd] at hed
        · simp [hid]
      simp [this, hd]
  · have : (findFields [m] rows).any (fun e => e.id == r.id && (findByID ff e.id).isNone) =
        false := by
      rw [List.any_eq_false]
      intro e he
      rcases mem_findFields.mp he with ⟨her, hem, _⟩
      by_cases hid : e.id = r.id
      · have : e = r := id_inj_of_nodup hn her hr hid
        subst this
        exact absurd hem hM
      · simp [hid]
    simp [this, hM]

/-! ## The upsert loop, characterized -/

theorem upsertStep_spec (existing : List ModuleField) (m : Nat) (h : Bool) (now idx : Nat)
    (f : ModuleField) (db : FieldsDB) (hpos : ∀ e ∈ existing, 0 < e.id) :
    (upsertStep existing m h now idx f db).1 = upsertExpected existing m h now db.nextID idx f ∧
    (upsertStep existing m h now idx f db).2.nextID =
      db.nextID + (if findByID existing f.id = none then 1 else 0) ∧
    (upsertStep existing m h now idx f db).2.rows =
      replaceRow db.rows (upsertStep existing m h now idx f db).1 := by
  cases hm : findByID existing f.id with
  | some e =>
    have hepos := hpos e (findByID_eq_some hm).1
    have hid : e.id = f.id := (findByID_eq_some hm).2
    have hfz : ¬ f.id = 0 := by omega
    cases h <;> simp [upsertStep, upsertExpected, hm, hfz]
  | none => simp [upsertStep, upsertExpected, hm, genID]

theorem upsertFields_spec {existing : List ModuleField} {m : Nat} {h : Bool} {now : Nat}
    (hpos : ∀ e ∈ existing, 0 < e.id) (ff : List ModuleField) (idx : Nat) (db : FieldsDB) :
    (upsertFields existing m h now idx ff db).2.nextID = db.nextID + freshCount existing ff ∧
    (upsertFields existing m h now idx ff db).1.length = ff.length ∧
    (∀ i f, ff[i]? = some f →
      (upsertFields existing m h now idx ff db).1[i]? =
        some (upsertExpected existing m h now (db.nextID + freshCount existing (ff.take i))
          (idx + i) f)) ∧
    (upsertFields existing m h now idx ff db).2.rows =
      (upsertFields existing m h now idx ff db).1.foldl replaceRow db.rows := by
  induction ff generalizing idx db with
  | nil => simp [upsertFields, freshCount]
  | cons f fs ih =>
    rcases upsertStep_spec existing m h now idx f db hpos with ⟨hw, hn1, hr1⟩
    have hunf :
        upsertFields existing m h now idx (f :: fs) db =
          ((upsertStep existing m h now idx f db).1 ::
              (upsertFields existing m h now (idx + 1) fs
                (upsertStep existing m h now idx f db).2).1,
            (upsertFields existing m h now (idx + 1) fs
              (upsertStep existing m h now idx f db).2).2) := rfl
    rcases ih (idx + 1) (upsertStep existing m h now idx f db).2 with ⟨ihn, ihl, ihe, ihr⟩
    refine ⟨?_, ?_, ?_, ?_⟩
    · rw [hunf]
      simp only [ihn, hn1, freshCount]
      omega
    · rw [hunf]
      simp [ihl]
    · intro i g hg
      cases i with
      | zero =>
        simp only [List.getElem?_cons_zero] at hg
        cases hg
        rw [hunf]
        simp only [List.getElem?_cons_zero, List.take_zero, freshCount, Nat.add_zero, hw]
      | succ i =>
        simp only [List.getElem?_cons_succ] at hg
        rw [hunf]
        simp only [List.getElem?_cons_succ]
        rw [ihe i g hg]
        have h1 : (upsertStep existing m h now idx f db).2.nextID +
            freshCount existing (fs.take i) =
            db.nextID + freshCount existing ((f :: fs).take (i + 1)) := by
          simp only [List.take_succ_cons, freshCount, hn1]
          omega
        have h2 : idx + 1 + i = idx + (i + 1) := by omega
        rw [h1, h2]
    · rw [hunf]
      simp only [List.foldl_cons, ihr, hr1]

theorem freshCount_nil : ∀ ff : List ModuleField, freshCount [] ff = ff.length := by
  intro ff
  induction ff with
  | nil => rfl
  | cons f fs ih =>
    simp [freshCount, findByID, ih]
    omega

theorem freshCount_le_length {existing : List ModuleField} :
    ∀ ff : List ModuleField, freshCount existing ff ≤ ff.length := by
  intro ff
  induction ff with
  | nil => simp [freshCount]
  | cons f fs ih =>
    by_cases h : findByID existing f.id = none <;> simp [freshCount, h] <;> omega

theorem freshCount_matched {existing : List ModuleField} :
    ∀ ff : List ModuleField, (∀ f ∈ ff, findByID existing f.id ≠ none) →
      freshCount existing ff = 0 := by
  intro ff
  induction ff with
  | nil => intro _; rfl
  | cons f fs ih =>
    intro hall
    have h1 : findByID existing f.id ≠ none := hall f (List.mem_cons_self f fs)
    simp only [freshCount, if_neg h1, Nat.zero_add]
    exact ih (fun g hg => hall g (List.mem_cons_of_mem f hg))

theorem freshCount_take_succ {existing : List ModuleField} {ff : List ModuleField} {i : Nat}
    {f : ModuleField} (hf : ff[i]? = some f) :
    freshCount existing (ff.take (i + 1)) =
      freshCount existing (ff.take i) + (if findByID existing f.id = none then 1 else 0) := by
  induction ff generalizing i with
  | nil => simp at hf
  | cons g gs ih =>
    cases i with
    | zero =>
      simp only [List.getElem?_cons_zero] at hf
      cases hf
      simp [freshCount, Nat.add_comm]
    | succ i =>
      simp only [List.getElem?_cons_succ] at hf
      simp only [List.take_succ_cons, freshCount, ih hf]
      omega

theorem freshCount_take_mono {existing : List ModuleField} {ff : List ModuleField} {i j : Nat}
    (hij : i ≤ j) :
    freshCount existing (ff.take i) ≤ freshCount existing (ff.take j) := by
  induction ff generalizing i j with
  | nil => simp
  | cons g gs ih =>
    cases i with
    | zero => cases j <;> simp [freshCount]
    | succ i =>
      cases j with
      | zero => omega
      | succ j =>
        simp only [List.take_succ_cons, freshCount]
        have := ih (i := i) (j := j) (by omega)
        omega

theorem freshCount_take_of_length_le {existing : List ModuleField} {ff : List ModuleField}
    {i : Nat} (hi : ff.length ≤ i) : freshCount existing (ff.take i) = freshCount existing ff := by
  rw [List.take_of_length_le hi]

/-- The combined characterization of `updateFields` on a well-formed state:
the final identifier counter, the length and pointwise value of the written
field list, and the final rows as a sequence of upserts over the rows
surviving the deletion phase. -/
theorem updateFields_spec (m : Nat) (h : Bool) (now : Nat) (ff : List ModuleField) (db : FieldsDB)
    (hwf : db.WF) :
    (updateFields m ff h now db).2.nextID =
      db.nextID + freshCount (findFields [m] db.rows) ff ∧
    (updateFields m ff h now db).1.length = ff.length ∧
    (∀ i f, ff[i]? = some f →
      (updateFields m ff h now db).1[i]? =
        some (upsertExpected (findFields [m] db.rows) m h now
          (db.nextID + freshCount (findFields [m] db.rows) (ff.take i)) i f)) ∧
    (updateFields m ff h now db).2.rows =
      (updateFields m ff h now db).1.foldl replaceRow (db.rows.filter (keepPred m ff)) := by
  rcases hwf with ⟨hpos0, hnodup, hbound⟩
  have hpos : ∀ e ∈ findFields [m] db.rows, 0 < e.id :=
    fun e he => (hbound e (findFields_sub e he)).1
  have hunf :
      updateFields m ff h now db =
        upsertFields (findFields [m] db.rows) m h now 0 ff
          { db with rows := deleteAbsent m ff (findFields [m] db.rows) db.rows } := rfl
  rw [hunf, deleteAbsent_findFields hnodup]
  rcases upsertFields_spec hpos ff 0
      { db with rows := db.rows.filter (keepPred m ff) } with ⟨h1, h2, h3, h4⟩
  refine ⟨h1, h2, ?_, h4⟩
  intro i f hf
  have := h3 i f hf
  simpa using this

theorem nodup_ids_of_index {ws : List ModuleField}
    (hd : ∀ (i j : Nat) (fi fj : ModuleField),
      i ≠ j → ws[i]? = some fi → ws[j]? = some fj → fi.id ≠ fj.id) :
    (ws.map (fun r => r.id)).Nodup := by
  rw [List.nodup_iff_injective_getElem]
  intro ⟨i, hi⟩ ⟨j, hj⟩ hij
  simp only [List.length_map] at hi hj
  simp only [List.getElem_map] at hij
  by_contra hne
  have hne2 : i ≠ j := by
    intro hx
    exact hne (by simp [Fin.ext_iff, hx])
  exact hd i j ws[i] ws[j] hne2 (List.getElem?_eq_getElem hi) (List.getElem?_eq_getElem hj) hij

theorem freshCount_take_lt {existing ff : List ModuleField} {i : Nat} (hi : i < ff.length)
    (hm : findByID existing (ff.get ⟨i, hi⟩).id = none) :
    freshCount existing (ff.take i) < freshCount existing ff := by
  have hsucc := @freshCount_take_succ existing ff i (ff.get ⟨i, hi⟩)
    (List.getElem?_eq_getElem hi)
  rw [if_pos (by simpa using hm)] at hsucc
  have hmono := @freshCount_take_mono existing ff (i + 1) ff.length (by omega)
  rw [freshCount_take_of_length_le (Nat.le_refl ff.length)] at hmono
  omega

/-- The state after `updateFields` is well-formed again: identifiers stay
positive, pairwise distinct, and below the generator counter. -/
theorem updateFields_wf (m : Nat) (h : Bool) (now : Nat) (ff : List ModuleField) (db : FieldsDB)
    (hwf : db.WF) : (updateFields m ff h now db).2.WF := by
  rcases updateFields_spec m h now ff db hwf with ⟨hn, hl, hpt, hr⟩
  rcases hwf with ⟨hpos0, hnodup, hbound⟩
  refine ⟨by rw [hn]; omega, ?_, ?_⟩
  · rw [hr]
    exact foldl_replace_nodup (((List.filter_sublist db.rows).map (fun r => r.id)).nodup hnodup)
  · intro r hrr
    rw [hr] at hrr
    rcases mem_foldl_replace _ hrr with hw | hold
    · rcases List.mem_iff_getElem?.mp hw with ⟨i, hwi⟩
      have hi : i < ff.length := by
        have h1 := (List.getElem?_eq_some.mp hwi).1
        omega
      have hfi := hpt i ff[i] (List.getElem?_eq_getElem hi)
      rw [hwi] at hfi
      have hw2 : r = upsertExpected (findFields [m] db.rows) m h now
          (db.nextID + freshCount (findFields [m] db.rows) (ff.take i)) i ff[i] := by
        cases hfi
        rfl
      rcases hm : findByID (findFields [m] db.rows) ff[i].id with _ | e2
      · have hid : r.id = db.nextID + freshCount (findFields [m] db.rows) (ff.take i) := by
          rw [hw2]
          simp [upsertExpected, hm]
        have hlt : freshCount (findFields [m] db.rows) (ff.take i) <
            freshCount (findFields [m] db.rows) ff := freshCount_take_lt hi (by simpa using hm)
        rw [hn]
        omega
      · have hid : r.id = ff[i].id := by
          rw [hw2]
          cases h <;> simp [upsertExpected, hm]
        rcases findByID_eq_some hm with ⟨he2, he2id⟩
        have he2db : e2 ∈ db.rows := findFields_sub e2 he2
        have := hbound e2 he2db
        rw [hn]
        omega
    · have hrdb : r ∈ db.rows := (List.mem_filter.mp hold).1
      have := hbound r hrdb
      rw [hn]
      omega

/-- Every field written by `updateFields` is the expected value for some
index of the desired list. -/
theorem updateFields_val (m : Nat) (h : Bool) (now : Nat) (ff : List ModuleField) (db : FieldsDB)
    (hwf : db.WF) :
    ∀ w ∈ (updateFields m ff h now db).1, ∃ i : Nat, ∃ hi : i < ff.length,
      w = upsertExpected (findFields [m] db.rows) m h now
        (db.nextID + freshCount (findFields [m] db.rows) (ff.take i)) i (ff.get ⟨i, hi⟩) := by
  rcases updateFields_spec m h now ff db hwf with ⟨_, hl, hpt, _⟩
  intro w hw
  rcases List.mem_iff_getElem?.mp hw with ⟨i, hwi⟩
  have hi : i < ff.length := by
    have h1 := (List.getElem?_eq_some.mp hwi).1
    omega
  have hfi := hpt i ff[i] (List.getElem?_eq_getElem hi)
  rw [hwi] at hfi
  refine ⟨i, hi, ?_⟩
  cases hfi
  rfl

theorem upsertExpected_proj (existing : List ModuleField) (m : Nat) (h : Bool) (now nid pl : Nat)
    (f : ModuleField) :
    (upsertExpected existing m h now nid pl f).moduleID = m ∧
    (upsertExpected existing m h now nid pl f).place = pl ∧
    (upsertExpected existing m h now nid pl f).deletedAt = none := by
  rcases hm : findByID existing f.id with _ | e <;> cases h <;> simp [upsertExpected, hm]

theorem upsertExpected_matched (existing : List ModuleField) (m : Nat) (h : Bool)
    (now nid pl : Nat) (f e : ModuleField) (hm : findByID existing f.id = some e) :
    (upsertExpected existing m h now nid pl f).id = f.id ∧
    (upsertExpected existing m h now nid pl f).createdAt = e.createdAt ∧
    (h = true → (upsertExpected existing m h now nid pl f).name = e.name ∧
      (upsertExpected existing m h now nid pl f).kind = e.kind ∧
      (upsertExpected existing m h now nid pl f).updatedAt = f.updatedAt) ∧
    (h = false → (upsertExpected existing m h now nid pl f).name = f.name ∧
      (upsertExpected existing m h now nid pl f).kind = f.kind ∧
      (upsertExpected existing m h now nid pl f).updatedAt = some now) := by
  cases h <;> simp [upsertExpected, hm]

theorem upsertExpected_fresh (existing : List ModuleField) (m : Nat) (h : Bool)
    (now nid pl : Nat) (f : ModuleField) (hm : findByID existing f.id = none) :
    (upsertExpected existing m h now nid pl f).id = nid ∧
    (upsertExpected existing m h now nid pl f).createdAt = now ∧
    (upsertExpected existing m h now nid pl f).name = f.name ∧
    (upsertExpected existing m h now nid pl f).kind = f.kind := by
  cases h <;> simp [upsertExpected, hm]

theorem upsertExpected_untouched (existing : List ModuleField) (m : Nat) (h : Bool)
    (now nid pl : Nat) (f : ModuleField) :
    (upsertExpected existing m h now nid pl f).label = f.label ∧
    (upsertExpected existing m h now nid pl f).options = f.options ∧
    (upsertExpected existing m h now nid pl f).isPrivate = f.isPrivate ∧
    (upsertExpected existing m h now nid pl f).isRequired = f.isRequired ∧
    (upsertExpected existing m h now nid pl f).isVisible = f.isVisible ∧
    (upsertExpected existing m h now nid pl f).isMulti = f.isMulti ∧
    (upsertExpected existing m h now nid pl f).defaultValue = f.defaultValue := by
  rcases hm : findByID existing f.id with _ | e <;> cases h <;> simp [upsertExpected, hm]

/-- Two fields written by the same call that carry the same identifier
agree on CreatedAt, and (when records exist) on Name and Kind: a shared
identifier means both were reconciled against the same existing field, or
both are the same freshly generated entry. -/
theorem updateFields_agree (m : Nat) (h : Bool) (now : Nat) (ff : List ModuleField)
    (db : FieldsDB) (hwf : db.WF) :
    ∀ w ∈ (updateFields m ff h now db).1, ∀ v ∈ (updateFields m ff h now db).1, v.id = w.id →
      v.createdAt = w.createdAt ∧ (h = true → v.name = w.name ∧ v.kind = w.kind) := by
  intro w hw v hv hid
  rcases updateFields_val m h now ff db hwf w hw with ⟨i, hi, hw2⟩
  rcases updateFields_val m h now ff db hwf v hv with ⟨j, hj, hv2⟩
  simp only [List.get_eq_getElem] at hw2 hv2
  rcases hwf with ⟨hpos0, hnodup, hbound⟩
  rcases hmi : findByID (findFields [m] db.rows) ff[i].id with _ | ei <;>
    rcases hmj : findByID (findFields [m] db.rows) ff[j].id with _ | ej
  · -- both fresh: the identifiers are distinct unless both are the same index
    rcases upsertExpected_fresh _ m h now
      (db.nextID + freshCount (findFields [m] db.rows) (ff.take i)) i ff[i] hmi
      with ⟨hwid0, hwc, hwn, hwk⟩
    rcases upsertExpected_fresh _ m h now
      (db.nextID + freshCount (findFields [m] db.rows) (ff.take j)) j ff[j] hmj
      with ⟨hvid0, hvc, hvn, hvk⟩
    have hwid : w.id = db.nextID + freshCount (findFields [m] db.rows) (ff.take i) := by
      rw [hw2]; exact hwid0
    have hvid : v.id = db.nextID + freshCount (findFields [m] db.rows) (ff.take j) := by
      rw [hv2]; exact hvid0
    have hij : i = j := by
      by_contra hne
      rcases Nat.lt_or_ge i j with hlt | hge
      · have h1 := @freshCount_take_succ (findFields [m] db.rows) ff i (ff.get ⟨i, hi⟩)
          (List.getElem?_eq_getElem hi)
        rw [if_pos (by simpa using hmi)] at h1
        have h2 := @freshCount_take_mono (findFields [m] db.rows) ff (i + 1) j (by omega)
        omega
      · have hgt : j < i := by omega
        have h1 := @freshCount_take_succ (findFields [m] db.rows) ff j (ff.get ⟨j, hj⟩)
          (List.getElem?_eq_getElem hj)
        rw [if_pos (by simpa using hmj)] at h1
        have h2 := @freshCount_take_mono (findFields [m] db.rows) ff (j + 1) i (by omega)
        omega
    subst hij
    have hvw : v = w := by rw [hv2, hw2]
    rw [hvw]
    exact ⟨rfl, fun _ => ⟨rfl, rfl⟩⟩
  · -- v matched, w fresh: impossible, the identifier ranges are disjoint
    exfalso
    have hwid : w.id = db.nextID + freshCount (findFields [m] db.rows) (ff.take i) := by
      rw [hw2]
      exact (upsertExpected_fresh _ m h now _ i ff[i] hmi).1
    have hvid : v.id = ff[j].id := by
      rw [hv2]
      exact (upsertExpected_matched _ m h now _ j ff[j] ej hmj).1
    have hejid : ej.id = ff[j].id := (findByID_eq_some hmj).2
    have hejdb : ej ∈ db.rows := findFields_sub ej (findByID_eq_some hmj).1
    have := (hbound ej hejdb).2
    omega
  · -- w matched, v fresh: impossible, symmetric
    exfalso
    have hvid : v.id = db.nextID + freshCount (findFields [m] db.rows) (ff.take j) := by
      rw [hv2]
      exact (upsertExpected_fresh _ m h now _ j ff[j] hmj).1
    have hwid : w.id = ff[i].id := by
      rw [hw2]
      exact (upsertExpected_matched _ m h now _ i ff[i] ei hmi).1
    have heiid : ei.id = ff[i].id := (findByID_eq_some hmi).2
    have heidb : ei ∈ db.rows := findFields_sub ei (findByID_eq_some hmi).1
    have := (hbound ei heidb).2
    omega
  · -- both matched: both reconciled against the same existing field
    have hwid : w.id = ff[i].id := by
      rw [hw2]
      exact (upsertExpected_matched _ m h now _ i ff[i] ei hmi).1
    have hvid : v.id = ff[j].id := by
      rw [hv2]
      exact (upsertExpected_matched _ m h now _ j ff[j] ej hmj).1
    have hsame : ff[j].id = ff[i].id := by omega
    have hee : ej = ei := by
      rw [hsame] at hmj
      rw [hmi] at hmj
      exact Option.some.inj hmj.symm
    subst hee
    rcases upsertExpected_matched _ m h now
      (db.nextID + freshCount (findFields [m] db.rows) (ff.take i)) i ff[i] ej hmi
      with ⟨_, hwc, hwt, hwfz⟩
    rcases upsertExpected_matched _ m h now
      (db.nextID + freshCount (findFields [m] db.rows) (ff.take j)) j ff[j] ej hmj
      with ⟨_, hvc, hvt, hvfz⟩
    constructor
    · rw [hw2, hv2, hwc, hvc]
    · intro ht
      rcases hwt ht with ⟨hwn, hwk, _⟩
      rcases hvt ht with ⟨hvn, hvk, _⟩
      constructor
      · rw [hw2, hv2, hwn, hvn]
      · rw [hw2, hv2, hwk, hvk]

/-! ## Claim C1 -/

/-- C1: reconciling a desired field list `ff` (any length n, n ≥ 0) against
a module with no existing active fields persists exactly the n written
fields as the module's active field set; the field upserted from index i
carries Place i, a freshly generated identifier (new to the table) and a
freshly stamped CreatedAt, and the n generated identifiers are pairwise
distinct. -/
theorem C1_updateFields_empty_module (m : Nat) (h : Bool) (now : Nat) (ff : List ModuleField)
    (db : FieldsDB) (hwf : db.WF) (hempty : findFields [m] db.rows = []) :
    (updateFields m ff h now db).1.length = ff.length ∧
    (updateFields m ff h now db).2.rows.filter
        (fun r => r.moduleID == m && r.deletedAt == none) = (updateFields m ff h now db).1 ∧
    (∀ (i : Nat) (f : ModuleField), ff[i]? = some f →
      (updateFields m ff h now db).1[i]? =
        some { f with id := db.nextID + i, createdAt := now, moduleID := m, place := i,
                      deletedAt := none }) ∧
    (∀ (i j : Nat) (fi fj : ModuleField), i ≠ j →
      (updateFields m ff h now db).1[i]? = some fi →
      (updateFields m ff h now db).1[j]? = some fj → fi.id ≠ fj.id) ∧
    (∀ f2 ∈ (updateFields m ff h now db).1,
      db.nextID ≤ f2.id ∧ ∀ r ∈ db.rows, r.id ≠ f2.id) := by
  rcases updateFields_spec m h now ff db hwf with ⟨hn, hl, he, hr⟩
  rcases hwf with ⟨hpos0, hnodup, hbound⟩
  have hpoint : ∀ (i : Nat) (f : ModuleField), ff[i]? = some f →
      (updateFields m ff h now db).1[i]? =
        some { f with id := db.nextID + i, createdAt := now, moduleID := m, place := i,
                      deletedAt := none } := by
    intro i f hf
    have hi : i < ff.length := (List.getElem?_eq_some.mp hf).1
    have := he i f hf
    rw [hempty] at this
    rw [this]
    have htake : freshCount ([] : List ModuleField) (ff.take i) = i := by
      rw [freshCount_nil]
      simp [List.length_take]
      omega
    simp [upsertExpected, findByID, htake]
  have hdistinct : ∀ (i j : Nat) (fi fj : ModuleField), i ≠ j →
      (updateFields m ff h now db).1[i]? = some fi →
      (updateFields m ff h now db).1[j]? = some fj → fi.id ≠ fj.id := by
    intro i j fi fj hij hfi hfj
    have hi : i < ff.length := by
      have := (List.getElem?_eq_some.mp hfi).1
      omega
    have hj : j < ff.length := by
      have := (List.getElem?_eq_some.mp hfj).1
      omega
    have hvi := hpoint i (ff.get ⟨i, hi⟩) (List.getElem?_eq_getElem hi)
    have hvj := hpoint j (ff.get ⟨j, hj⟩) (List.getElem?_eq_getElem hj)
    rw [hfi] at hvi
    rw [hfj] at hvj
    have hidi : fi.id = db.nextID + i := by
      cases hvi
      rfl
    have hidj : fj.id = db.nextID + j := by
      cases hvj
      rfl
    rw [hidi, hidj]
    omega
  have hfresh : ∀ f2 ∈ (updateFields m ff h now db).1,
      db.nextID ≤ f2.id ∧ ∀ r ∈ db.rows, r.id ≠ f2.id := by
    intro f2 hf2
    rcases List.mem_iff_getElem?.mp hf2 with ⟨i, hf2i⟩
    have hi : i < ff.length := by
      have := (List.getElem?_eq_some.mp hf2i).1
      omega
    have hv := hpoint i (ff.get ⟨i, hi⟩) (List.getElem?_eq_getElem hi)
    rw [hf2i] at hv
    have hid : f2.id = db.nextID + i := by
      cases hv
      rfl
    constructor
    · omega
    · intro r hrr
      have := (hbound r hrr).2
      omega
  refine ⟨hl, ?_, hpoint, hdistinct, hfresh⟩
  have hkeep : db.rows.filter (keepPred m ff) = db.rows := by
    apply List.filter_eq_self.mpr
    intro r hrm
    unfold keepPred
    by_cases hM : r.moduleID = m
    · have hd := findFields_eq_nil.mp hempty r hrm hM
      have hdb : (r.deletedAt == none) = false := by
        rcases hdel : r.deletedAt with _ | d
        · exact absurd hdel hd
        · rfl
      simp [hdb]
    · simp [hM]
  rw [hr, hkeep]
  have happ : (updateFields m ff h now db).1.foldl replaceRow db.rows =
      db.rows ++ (updateFields m ff h now db).1 := by
    exact foldl_replace_append db.rows (fun w hw r hrr => (hfresh w hw).2 r hrr)
      (nodup_ids_of_index hdistinct)
  rw [happ, List.filter_append]
  have h0 : db.rows.filter (fun r => r.moduleID == m && r.deletedAt == none) = [] := by
    rw [List.filter_eq_nil_iff]
    intro r hrm hcon
    have hcon2 : r.moduleID = m ∧ r.deletedAt = none := by
      simpa using hcon
    rcases hcon2 with ⟨hM2, hD2⟩
    have : r ∈ findFields [m] db.rows := mem_findFields.mpr ⟨hrm, hM2, hD2⟩
    simp [hempty] at this
  have h1 : (updateFields m ff h now db).1.filter
      (fun r => r.moduleID == m && r.deletedAt == none) = (updateFields m ff h now db).1 := by
    apply List.filter_eq_self.mpr
    intro f2 hf2
    rcases List.mem_iff_getElem?.mp hf2 with ⟨i, hf2i⟩
    have hi : i < ff.length := by
      have := (List.getElem?_eq_some.mp hf2i).1
      omega
    have hv := hpoint i (ff.get ⟨i, hi⟩) (List.getElem?_eq_getElem hi)
    rw [hf2i] at hv
    cases hv
    simp
  rw [h0, h1]
  rfl

/-- C1 witness: the theorem applied to a fresh table and two new fields. -/
theorem C1_witness :
    (updateFields 7 [sampleField, { sampleField with name := "Qty" }] true 100
        { rows := [], nextID := 1 }).1[0]? =
      some { sampleField with id := 1, createdAt := 100, moduleID := 7, place := 0,
                              deletedAt := none } :=
  (C1_updateFields_empty_module 7 true 100 [sampleField, { sampleField with name := "Qty" }]
      { rows := [], nextID := 1 } (by constructor <;> simp [sampleField])
      (by rfl)).2.2.1 0 sampleField rfl

/-! ## Claims C2 and C3 -/

/-- C2: with hasRecords = true, a desired field whose ID matches an
existing active field `e` of the module is persisted with e's Name and
Kind (the incoming Name and Kind are silently discarded), carries over
e's CreatedAt, and keeps its own UpdatedAt untouched; no error is raised
for the rename or type-change attempt — the written row is exactly the
incoming field with those corrections applied. -/
theorem C2_updateFields_hasRecords_guard (m now : Nat) (ff : List ModuleField) (db : FieldsDB)
    (hwf : db.WF) (i : Nat) (f e : ModuleField) (hf : ff[i]? = some f)
    (he : findByID (findFields [m] db.rows) f.id = some e) :
    (updateFields m ff true now db).1[i]? =
      some { f with createdAt := e.createdAt, name := e.name, kind := e.kind, moduleID := m,
                    place := i, deletedAt := none } := by
  rcases updateFields_spec m true now ff db hwf with ⟨_, _, hpt, _⟩
  have := hpt i f hf
  rw [this]
  simp [upsertExpected, he]

/-- C2 witness: renaming "Amount"/number to "AmountPaid"/text while
records exist keeps Name "Amount" and Kind "number". -/
theorem C2_witness :
    (updateFields 7 [{ sampleField with id := 5, name := "AmountPaid", kind := "text" }] true 100
        { rows := [sampleExisting], nextID := 6 }).1[0]? =
      some { sampleField with id := 5, createdAt := 11, name := "Amount", kind := "number",
                              moduleID := 7, place := 0, deletedAt := none } :=
  C2_updateFields_hasRecords_guard 7 100
    [{ sampleField with id := 5, name := "AmountPaid", kind := "text" }]
    { rows := [sampleExisting], nextID := 6 } (by decide) 0
    { sampleField with id := 5, name := "AmountPaid", kind := "text" } sampleExisting rfl
    (by decide)

/-- C3: each existing active field whose ID is absent from the desired
list is hard-deleted — no row carrying that ID remains in the table at
all (in particular it is not merely soft-deleted) — while each existing
field whose ID appears in the desired list at index i retains its ID and
CreatedAt and has its Place set to i. -/
theorem C3_updateFields_reconcile (m : Nat) (h : Bool) (now : Nat) (ff : List ModuleField)
    (db : FieldsDB) (hwf : db.WF) :
    (∀ e ∈ findFields [m] db.rows, findByID ff e.id = none →
      ∀ r ∈ (updateFields m ff h now db).2.rows, r.id ≠ e.id) ∧
    (∀ (i : Nat) (f e : ModuleField), ff[i]? = some f →
      findByID (findFields [m] db.rows) f.id = some e →
      ∃ f2 : ModuleField, (updateFields m ff h now db).1[i]? = some f2 ∧
        f2.id = e.id ∧ f2.createdAt = e.createdAt ∧ f2.place = i) := by
  rcases updateFields_spec m h now ff db hwf with ⟨_, hl, hpt, hr⟩
  rcases hwf with ⟨hpos0, hnodup, hbound⟩
  constructor
  · intro e hee habs r hrr hid
    have hedb : e ∈ db.rows := findFields_sub e hee
    have hact := mem_findFields.mp hee
    have hidmem : e.id ∈ ((updateFields m ff h now db).2.rows.map (fun v => v.id)) := by
      rw [← hid]
      exact List.mem_map_of_mem (fun v => v.id) hrr
    rw [hr] at hidmem
    rcases ids_foldl_replace _ hidmem with hin | hin
    · rcases hin with ⟨w, hw, hwid⟩
      rcases List.mem_iff_getElem?.mp hw with ⟨i, hwi⟩
      have hi : i < ff.length := by
        have h1 := (List.getElem?_eq_some.mp hwi).1
        omega
      have hfi := hpt i ff[i] (List.getElem?_eq_getElem hi)
      rw [hwi] at hfi
      have hw2 : w = upsertExpected (findFields [m] db.rows) m h now
          (db.nextID + freshCount (findFields [m] db.rows) (ff.take i)) i ff[i] := by
        cases hfi
        rfl
      rcases hm : findByID (findFields [m] db.rows) ff[i].id with _ | e2
      · have : w.id = db.nextID + freshCount (findFields [m] db.rows) (ff.take i) := by
          rw [hw2]
          simp [upsertExpected, hm]
        have hblt := (hbound e hedb).2
        omega
      · have hwf2 : w.id = ff[i].id := by
          rw [hw2]
          cases h <;> simp [upsertExpected, hm]
        have hfe : ff[i].id = e.id := by omega
        have hmem : ff[i] ∈ ff := List.getElem_mem hi
        exact findByID_eq_none.mp habs ff[i] hmem hfe
    · rcases List.mem_map.mp hin with ⟨r2, hr2, hr2id⟩
      have hr2db : r2 ∈ db.rows := (List.mem_filter.mp hr2).1
      have hr2keep := (List.mem_filter.mp hr2).2
      have : r2 = e := id_inj_of_nodup hnodup hr2db hedb hr2id
      subst this
      unfold keepPred at hr2keep
      have hiso : (findByID ff r2.id).isNone = true := by simp [habs]
      simp [hact.2.1, hact.2.2, hiso] at hr2keep
  · intro i f e hf he
    have := hpt i f hf
    refine ⟨upsertExpected (findFields [m] db.rows) m h now
      (db.nextID + freshCount (findFields [m] db.rows) (ff.take i)) i f, this, ?_, ?_, ?_⟩
    · have hfe : e.id = f.id := (findByID_eq_some he).2
      cases h <;> simp [upsertExpected, he, hfe]
    · cases h <;> simp [upsertExpected, he]
    · cases h <;> simp [upsertExpected, he]

/-- C3 witness: persisted {f1, f2, f3}, desired {f1, f3}: f2's row is
gone entirely, and f3 keeps id 3 and CreatedAt 13 with Place 1. -/
theorem C3_witness :
    (∀ r ∈ (updateFields 7 [sampleF1, sampleF3] false 100
        { rows := [sampleF1, sampleF2, sampleF3], nextID := 10 }).2.rows, r.id ≠ 2) ∧
    (∃ f2 : ModuleField, (updateFields 7 [sampleF1, sampleF3] false 100
        { rows := [sampleF1, sampleF2, sampleF3], nextID := 10 }).1[1]? = some f2 ∧
      f2.id = 3 ∧ f2.createdAt = 13 ∧ f2.place = 1) := by
  have hthm := C3_updateFields_reconcile 7 false 100 [sampleF1, sampleF3]
    { rows := [sampleF1, sampleF2, sampleF3], nextID := 10 } (by decide)
  constructor
  · exact hthm.1 sampleF2 (by decide) (by decide)
  · exact hthm.2 1 sampleF3 sampleF3 (by decide) (by decide)

/-! ## Claim C10 -/

theorem filter_nonM_replaceRow {m : Nat} {w : ModuleField} (hwm : w.moduleID = m) :
    ∀ rows : List ModuleField, (∀ r ∈ rows, r.id = w.id → r.moduleID = m) →
      (replaceRow rows w).filter (fun r => !(r.moduleID == m)) =
        rows.filter (fun r => !(r.moduleID == m)) := by
  intro rows
  induction rows with
  | nil =>
    intro _
    simp [replaceRow, hwm]
  | cons a rs ih =>
    intro hown
    by_cases ha : a.id = w.id
    · have ham : a.moduleID = m := hown a (List.mem_cons_self a rs) ha
      simp [replaceRow, ha, hwm, ham]
    · simp only [replaceRow, ha, if_false]
      by_cases haM : a.moduleID = m
      · simp only [List.filter_cons, haM, beq_self_eq_true, Bool.not_true, Bool.false_eq_true,
          if_false]
        exact ih (fun r hr hid => hown r (List.mem_cons_of_mem a hr) hid)
      · have hb : (!(a.moduleID == m)) = true := by simp [haM]
        simp only [List.filter_cons, hb, if_true]
        rw [ih (fun r hr hid => hown r (List.mem_cons_of_mem a hr) hid)]

theorem filter_nonM_foldl {m : Nat} :
    ∀ (ws rows : List ModuleField), (∀ w ∈ ws, w.moduleID = m) →
      (∀ w ∈ ws, ∀ r ∈ rows, r.id = w.id → r.moduleID = m) →
      (ws.foldl replaceRow rows).filter (fun r => !(r.moduleID == m)) =
        rows.filter (fun r => !(r.moduleID == m)) := by
  intro ws
  induction ws with
  | nil =>
    intro rows _ _
    rfl
  | cons w ws ih =>
    intro rows hmod hown
    simp only [List.foldl_cons]
    have hwm : w.moduleID = m := hmod w (List.mem_cons_self w ws)
    rw [ih (replaceRow rows w) (fun v hv => hmod v (List.mem_cons_of_mem w hv)) ?_]
    · exact filter_nonM_replaceRow hwm rows
        (fun r hr hid => hown w (List.mem_cons_self w ws) r hr hid)
    · intro v hv r hr hid
      rcases mem_of_mem_replaceRow hr with h2 | h2
      · rw [h2]
        exact hwm
      · exact hown v (List.mem_cons_of_mem w hv) r h2 hid

/-- C10: the reconciliation never touches another module's rows — the
rows whose rel_module differs from the given moduleID are exactly the
same before and after the call — and every upserted field row carries
ModuleID = moduleID. -/
theorem C10_updateFields_frame (m : Nat) (h : Bool) (now : Nat) (ff : List ModuleField)
    (db : FieldsDB) (hwf : db.WF) :
    (updateFields m ff h now db).2.rows.filter (fun r => !(r.moduleID == m)) =
      db.rows.filter (fun r => !(r.moduleID == m)) ∧
    ∀ f2 ∈ (updateFields m ff h now db).1, f2.moduleID = m := by
  rcases updateFields_spec m h now ff db hwf with ⟨_, hl, hpt, hr⟩
  rcases hwf with ⟨hpos0, hnodup, hbound⟩
  have hval : ∀ w ∈ (updateFields m ff h now db).1, ∃ i : Nat, ∃ hi : i < ff.length,
      w = upsertExpected (findFields [m] db.rows) m h now
        (db.nextID + freshCount (findFields [m] db.rows) (ff.take i)) i (ff.get ⟨i, hi⟩) := by
    intro w hw
    rcases List.mem_iff_getElem?.mp hw with ⟨i, hwi⟩
    have hi : i < ff.length := by
      have h1 := (List.getElem?_eq_some.mp hwi).1
      omega
    have hfi := hpt i ff[i] (List.getElem?_eq_getElem hi)
    rw [hwi] at hfi
    refine ⟨i, hi, ?_⟩
    cases hfi
    rfl
  have hmod : ∀ w ∈ (updateFields m ff h now db).1, w.moduleID = m := by
    intro w hw
    rcases hval w hw with ⟨i, hi, hw2⟩
    simp only [List.get_eq_getElem] at hw2
    rcases hm : findByID (findFields [m] db.rows) ff[i].id with _ | e2 <;>
      rw [hw2] <;> cases h <;> simp [upsertExpected, hm]
  refine ⟨?_, hmod⟩
  rw [hr]
  have hown : ∀ w ∈ (updateFields m ff h now db).1,
      ∀ r ∈ db.rows.filter (keepPred m ff), r.id = w.id → r.moduleID = m := by
    intro w hw r hrk hid
    have hrdb : r ∈ db.rows := (List.mem_filter.mp hrk).1
    rcases hval w hw with ⟨i, hi, hw2⟩
    simp only [List.get_eq_getElem] at hw2
    rcases hm : findByID (findFields [m] db.rows) ff[i].id with _ | e2
    · have : w.id = db.nextID + freshCount (findFields [m] db.rows) (ff.take i) := by
        rw [hw2]
        simp [upsertExpected, hm]
      have := (hbound r hrdb).2
      omega
    · have hwid : w.id = ff[i].id := by
        rw [hw2]
        cases h <;> simp [upsertExpected, hm]
      rcases findByID_eq_some hm with ⟨he2, he2id⟩
      have he2db : e2 ∈ db.rows := findFields_sub e2 he2
      have : r = e2 := id_inj_of_nodup hnodup hrdb he2db (by omega)
      rw [this]
      exact (mem_findFields.mp he2).2.1
  rw [filter_nonM_foldl (updateFields m ff h now db).1 (db.rows.filter (keepPred m ff))
    hmod hown]
  rw [List.filter_filter]
  apply List.filter_congr
  intro r _
  by_cases hM : r.moduleID = m
  · simp [hM]
  · unfold keepPred
    simp [hM]

/-- C10 witness: a row of module 9 survives a reconciliation of module 7
untouched. -/
theorem C10_witness :
    (updateFields 7 [sampleF1] false 100
        { rows := [sampleF1, { sampleF2 with moduleID := 9 }], nextID := 10 }).2.rows.filter
        (fun r => !(r.moduleID == 7)) =
      [sampleF1, { sampleF2 with moduleID := 9 }].filter (fun r => !(r.moduleID == 7)) :=
  (C10_updateFields_frame 7 false 100 [sampleF1]
    { rows := [sampleF1, { sampleF2 with moduleID := 9 }], nextID := 10 } (by decide)).1

/-! ## Claim C4 -/

/-- C4: invoking UpdateFields twice with the identical desired slice and
no intervening writes is idempotent.  The Go slice holds field pointers
that the first call mutates in place (writing generated identifiers and
carried timestamps back through them), so the second call observes the
first call's output; `updateTwice` captures exactly that calling pattern.
The second call's deletion phase keeps every row, no identifier is
generated (the generator state is untouched), every row's and every
field's ID and CreatedAt are unchanged, and with hasRecords = true the
field list and the table are completely unchanged, while with
hasRecords = false the only change is a fresh UpdatedAt on the (all
matched) fields. -/
theorem C4_updateFields_idempotent (m : Nat) (h : Bool) (now1 now2 : Nat)
    (ff : List ModuleField) (db : FieldsDB) (hwf : db.WF) :
    (updateTwice m h now1 now2 ff db).2.2.nextID =
      (updateTwice m h now1 now2 ff db).1.2.nextID ∧
    (updateTwice m h now1 now2 ff db).1.2.rows.filter
        (keepPred m (updateTwice m h now1 now2 ff db).1.1) =
      (updateTwice m h now1 now2 ff db).1.2.rows ∧
    (updateTwice m h now1 now2 ff db).2.2.rows.map (fun r => r.id) =
      (updateTwice m h now1 now2 ff db).1.2.rows.map (fun r => r.id) ∧
    (updateTwice m h now1 now2 ff db).2.2.rows.map (fun r => r.createdAt) =
      (updateTwice m h now1 now2 ff db).1.2.rows.map (fun r => r.createdAt) ∧
    (updateTwice m h now1 now2 ff db).2.1.map (fun f => f.id) =
      (updateTwice m h now1 now2 ff db).1.1.map (fun f => f.id) ∧
    (updateTwice m h now1 now2 ff db).2.1.map (fun f => f.createdAt) =
      (updateTwice m h now1 now2 ff db).1.1.map (fun f => f.createdAt) ∧
    (h = true → (updateTwice m h now1 now2 ff db).2 = (updateTwice m h now1 now2 ff db).1) ∧
    (h = false → (updateTwice m h now1 now2 ff db).2.1 =
      (updateTwice m h now1 now2 ff db).1.1.map (fun f => { f with updatedAt := some now2 })) := by
  have hu1 : (updateTwice m h now1 now2 ff db).1 = updateFields m ff h now1 db := rfl
  have hu2 : (updateTwice m h now1 now2 ff db).2 =
      updateFields m (updateFields m ff h now1 db).1 h now2 (updateFields m ff h now1 db).2 := rfl
  rw [hu1, hu2]
  have hwf1 : (updateFields m ff h now1 db).2.WF := updateFields_wf m h now1 ff db hwf
  obtain ⟨hn1, hl1, hpt1, hr1⟩ := updateFields_spec m h now1 ff db hwf
  obtain ⟨hn2, hl2, hpt2, hr2⟩ :=
    updateFields_spec m h now2 (updateFields m ff h now1 db).1 (updateFields m ff h now1 db).2 hwf1
  have hagree := updateFields_agree m h now1 ff db hwf
  have hval := updateFields_val m h now1 ff db hwf
  obtain ⟨hpos1, hnodup1, hbound1⟩ := hwf1
  obtain ⟨hpos0, hnodup0, hbound0⟩ := hwf
  have hbool : h = true ∨ h = false := by cases h <;> simp
  -- the unique row carrying an id that was written is the last write of that id
  have hmem_last : ∀ (x : Nat) (v : ModuleField),
      lastWrite (updateFields m ff h now1 db).1 x = some v →
      rowById (updateFields m ff h now1 db).2.rows x = some v := by
    intro x v hlv
    rw [hr1, rowById_foldl_replace, hlv]
  have hlast : ∀ r ∈ (updateFields m ff h now1 db).2.rows, ∀ v : ModuleField,
      lastWrite (updateFields m ff h now1 db).1 r.id = some v → r = v := by
    intro r hrr v hlv
    have h1 : rowById (updateFields m ff h now1 db).2.rows r.id = some r :=
      rowById_of_mem hnodup1 hrr
    rw [hmem_last r.id v hlv] at h1
    exact (Option.some.inj h1).symm
  have hpresent : ∀ w ∈ (updateFields m ff h now1 db).1,
      ∃ r ∈ (updateFields m ff h now1 db).2.rows, r.id = w.id := by
    intro w hw
    rcases lastWrite_isSome_of_mem hw rfl with ⟨v, hlv⟩
    rcases rowById_eq_some (hmem_last w.id v hlv) with ⟨hvmem, hvid⟩
    exact ⟨v, hvmem, hvid⟩
  have hps : ∀ w ∈ (updateFields m ff h now1 db).1, w.moduleID = m ∧ w.deletedAt = none := by
    intro w hw
    rcases hval w hw with ⟨i, hi, hw2⟩
    rw [hw2]
    rcases upsertExpected_proj (findFields [m] db.rows) m h now1
      (db.nextID + freshCount (findFields [m] db.rows) (ff.take i)) i (ff.get ⟨i, hi⟩)
      with ⟨h1, _, h3⟩
    exact ⟨h1, h3⟩
  -- every active row of the module after the call carries a written id
  have hactive : ∀ r ∈ (updateFields m ff h now1 db).2.rows, r.moduleID = m →
      r.deletedAt = none → ∃ w ∈ (updateFields m ff h now1 db).1, w.id = r.id := by
    intro r hrr hM hD
    have h1 : rowById (updateFields m ff h now1 db).2.rows r.id = some r :=
      rowById_of_mem hnodup1 hrr
    rcases hlw : lastWrite (updateFields m ff h now1 db).1 r.id with _ | v
    · rw [hr1, rowById_foldl_replace, hlw] at h1
      rcases rowById_eq_some h1 with ⟨hr1mem, _⟩
      have hrdb : r ∈ db.rows := (List.mem_filter.mp hr1mem).1
      have hrkeep := (List.mem_filter.mp hr1mem).2
      unfold keepPred at hrkeep
      rcases hfb : findByID ff r.id with _ | g
      · rw [hfb] at hrkeep
        simp [hM, hD] at hrkeep
      · rcases findByID_eq_some hfb with ⟨hgmem, hgid⟩
        rcases List.mem_iff_getElem?.mp hgmem with ⟨k, hgk⟩
        have hfk := hpt1 k g hgk
        have hrE : r ∈ findFields [m] db.rows := mem_findFields.mpr ⟨hrdb, hM, hD⟩
        have hER : findByID (findFields [m] db.rows) r.id = some r :=
          findByID_of_mem (findFields_nodup_ids hnodup0) hrE
        have hmk : findByID (findFields [m] db.rows) g.id = some r := by
          rw [hgid]
          exact hER
        have hwk := (upsertExpected_matched (findFields [m] db.rows) m h now1
          (db.nextID + freshCount (findFields [m] db.rows) (ff.take k)) k g r hmk).1
        refine ⟨_, List.getElem?_mem hfk, ?_⟩
        rw [hwk, hgid]
    · rcases lastWrite_eq_some hlw with ⟨hvm, hvid⟩
      exact ⟨v, hvm, hvid⟩
  -- the second call's deletion phase keeps every row
  have hdelete2 : (updateFields m ff h now1 db).2.rows.filter
      (keepPred m (updateFields m ff h now1 db).1) = (updateFields m ff h now1 db).2.rows := by
    apply List.filter_eq_self.mpr
    intro r hrr
    unfold keepPred
    by_cases hM : r.moduleID = m
    · rcases hD : r.deletedAt with _ | d
      · rcases hactive r hrr hM hD with ⟨w, hwm, hwid⟩
        rcases hfb : findByID (updateFields m ff h now1 db).1 r.id with _ | g
        · exact absurd hwid (findByID_eq_none.mp hfb w hwm)
        · simp [hM, hD, hfb]
      · simp [hM, hD]
    · simp [hM]
  -- every written field matches an existing field of the second call
  have hmatch2 : ∀ w ∈ (updateFields m ff h now1 db).1, ∃ v : ModuleField,
      findByID (findFields [m] (updateFields m ff h now1 db).2.rows) w.id = some v ∧
      v ∈ (updateFields m ff h now1 db).1 ∧ v.id = w.id := by
    intro w hw
    rcases lastWrite_isSome_of_mem hw rfl with ⟨v, hlv⟩
    rcases rowById_eq_some (hmem_last w.id v hlv) with ⟨hvdb, hvid⟩
    rcases lastWrite_eq_some hlv with ⟨hvff, _⟩
    rcases hps v hvff with ⟨hvM, hvD⟩
    have hvE2 : v ∈ findFields [m] (updateFields m ff h now1 db).2.rows :=
      mem_findFields.mpr ⟨hvdb, hvM, hvD⟩
    have hfv := findByID_of_mem (findFields_nodup_ids hnodup1) hvE2
    rw [hvid] at hfv
    exact ⟨v, hfv, hvff, hvid⟩
  have hfc2 : freshCount (findFields [m] (updateFields m ff h now1 db).2.rows)
      (updateFields m ff h now1 db).1 = 0 := by
    apply freshCount_matched
    intro f hf
    rcases hmatch2 f hf with ⟨v, hv, _, _⟩
    rw [hv]
    simp
  have hnext : (updateFields m (updateFields m ff h now1 db).1 h now2
      (updateFields m ff h now1 db).2).2.nextID = (updateFields m ff h now1 db).2.nextID := by
    rw [hn2, hfc2]
    omega
  -- the per-index characterization of the first call's output
  have hfieq : ∀ (i : Nat) (hi1 : i < (updateFields m ff h now1 db).1.length),
      ∃ hi : i < ff.length,
      (updateFields m ff h now1 db).1[i] = upsertExpected (findFields [m] db.rows) m h now1
        (db.nextID + freshCount (findFields [m] db.rows) (ff.take i)) i (ff.get ⟨i, hi⟩) := by
    intro i hi1
    have hi : i < ff.length := by omega
    refine ⟨hi, ?_⟩
    have hgi : (updateFields m ff h now1 db).1[i]? = some ((updateFields m ff h now1 db).1[i]) :=
      List.getElem?_eq_getElem hi1
    rw [hpt1 i ff[i] (List.getElem?_eq_getElem hi)] at hgi
    exact (Option.some.inj hgi).symm
  -- the second call rewrites each field to itself (plus UpdatedAt if hasRecords is false)
  have hstep2 : ∀ (i : Nat) (hi1 : i < (updateFields m ff h now1 db).1.length),
      (h = true → (updateFields m (updateFields m ff h now1 db).1 h now2
          (updateFields m ff h now1 db).2).1[i]? =
        some ((updateFields m ff h now1 db).1[i])) ∧
      (h = false → (updateFields m (updateFields m ff h now1 db).1 h now2
          (updateFields m ff h now1 db).2).1[i]? =
        some { (updateFields m ff h now1 db).1[i] with updatedAt := some now2 }) := by
    intro i hi1
    have hmem : (updateFields m ff h now1 db).1[i] ∈ (updateFields m ff h now1 db).1 :=
      List.getElem_mem hi1
    have hp2 := hpt2 i ((updateFields m ff h now1 db).1[i]) (List.getElem?_eq_getElem hi1)
    rcases hmatch2 ((updateFields m ff h now1 db).1[i]) hmem with ⟨v, hfb2, hvff, hvid⟩
    rcases upsertExpected_matched (findFields [m] (updateFields m ff h now1 db).2.rows) m h now2
      ((updateFields m ff h now1 db).2.nextID +
        freshCount (findFields [m] (updateFields m ff h now1 db).2.rows)
          ((updateFields m ff h now1 db).1.take i)) i
      ((updateFields m ff h now1 db).1[i]) v hfb2 with ⟨hid2, hc2, htrue2, hfalse2⟩
    rcases upsertExpected_untouched (findFields [m] (updateFields m ff h now1 db).2.rows) m h now2
      ((updateFields m ff h now1 db).2.nextID +
        freshCount (findFields [m] (updateFields m ff h now1 db).2.rows)
          ((updateFields m ff h now1 db).1.take i)) i
      ((updateFields m ff h now1 db).1[i]) with ⟨hu1', hu2', hu3', hu4', hu5', hu6', hu7'⟩
    rcases upsertExpected_proj (findFields [m] (updateFields m ff h now1 db).2.rows) m h now2
      ((updateFields m ff h now1 db).2.nextID +
        freshCount (findFields [m] (updateFields m ff h now1 db).2.rows)
          ((updateFields m ff h now1 db).1.take i)) i
      ((updateFields m ff h now1 db).1[i]) with ⟨hq1, hq2, hq3⟩
    rcases hagree ((updateFields m ff h now1 db).1[i]) hmem v hvff hvid with ⟨hcag, hnag⟩
    rcases hps ((updateFields m ff h now1 db).1[i]) hmem with ⟨hM1, hD1⟩
    rcases hfieq i hi1 with ⟨hi, hieq⟩
    have hplace1 : ((updateFields m ff h now1 db).1[i]).place = i := by
      rw [hieq]
      exact (upsertExpected_proj (findFields [m] db.rows) m h now1
        (db.nextID + freshCount (findFields [m] db.rows) (ff.take i)) i (ff.get ⟨i, hi⟩)).2.1
    constructor
    · intro ht
      rw [hp2]
      congr 1
      apply ModuleField.ext
      · rw [hid2]
      · rw [hq1, hM1]
      · rw [hq2, hplace1]
      · rw [(htrue2 ht).2.1, (hnag ht).2]
      · rw [(htrue2 ht).1, (hnag ht).1]
      · rw [hu1']
      · rw [hu2']
      · rw [hu3']
      · rw [hu4']
      · rw [hu5']
      · rw [hu6']
      · rw [hu7']
      · rw [hc2, hcag]
      · rw [(htrue2 ht).2.2]
      · rw [hq3, hD1]
    · intro hf
      rw [hp2]
      congr 1
      apply ModuleField.ext
      · rw [hid2]
      · rw [hq1, hM1]
      · rw [hq2, hplace1]
      · rw [(hfalse2 hf).2.1]
      · rw [(hfalse2 hf).1]
      · rw [hu1']
      · rw [hu2']
      · rw [hu3']
      · rw [hu4']
      · rw [hu5']
      · rw [hu6']
      · rw [hu7']
      · rw [hc2, hcag]
      · rw [(hfalse2 hf).2.2]
      · rw [hq3, hD1]
  -- list-level consequences for the written fields
  have hfftrue : h = true → (updateFields m (updateFields m ff h now1 db).1 h now2
      (updateFields m ff h now1 db).2).1 = (updateFields m ff h now1 db).1 := by
    intro ht
    apply List.ext_getElem?
    intro i
    by_cases hi1 : i < (updateFields m ff h now1 db).1.length
    · rw [(hstep2 i hi1).1 ht, List.getElem?_eq_getElem hi1]
    · rw [List.getElem?_eq_none (by omega), List.getElem?_eq_none (by omega)]
  have hfffalse : h = false → (updateFields m (updateFields m ff h now1 db).1 h now2
      (updateFields m ff h now1 db).2).1 =
      (updateFields m ff h now1 db).1.map (fun f => { f with updatedAt := some now2 }) := by
    intro hf
    apply List.ext_getElem?
    intro i
    by_cases hi1 : i < (updateFields m ff h now1 db).1.length
    · rw [(hstep2 i hi1).2 hf, List.getElem?_map, List.getElem?_eq_getElem hi1]
      rfl
    · rw [List.getElem?_eq_none (by omega), List.getElem?_eq_none (by simp; omega)]
  -- table-level: the second call's writes replay the stored rows
  have hpres2 : ∀ w ∈ (updateFields m (updateFields m ff h now1 db).1 h now2
      (updateFields m ff h now1 db).2).1, ∃ r ∈ (updateFields m ff h now1 db).2.rows,
      r.id = w.id := by
    intro w hw
    rcases hbool with hb | hb
    · subst hb
      rw [hfftrue rfl] at hw
      exact hpresent w hw
    · subst hb
      rw [hfffalse rfl] at hw
      rcases List.mem_map.mp hw with ⟨w0, hw0, hw0e⟩
      rcases hpresent w0 hw0 with ⟨r, hrm, hrid⟩
      refine ⟨r, hrm, ?_⟩
      rw [← hw0e]
      exact hrid
  have hrows2 : (updateFields m (updateFields m ff h now1 db).1 h now2
      (updateFields m ff h now1 db).2).2.rows =
      (updateFields m ff h now1 db).2.rows.map (fun r =>
        match lastWrite (updateFields m (updateFields m ff h now1 db).1 h now2
          (updateFields m ff h now1 db).2).1 r.id with
        | some v => v
        | none => r) := by
    rw [hr2, hdelete2]
    exact foldl_replace_eq_map (updateFields m ff h now1 db).2.rows hnodup1 hpres2
  refine ⟨hnext, hdelete2, ?_, ?_, ?_, ?_, ?_, hfffalse⟩
  · -- row ids unchanged
    rw [hrows2, List.map_map]
    apply List.map_congr_left
    intro r hrr
    simp only [Function.comp]
    rcases hbool with hb | hb
    · subst hb
      rw [hfftrue rfl]
      cases hlw : lastWrite (updateFields m ff true now1 db).1 r.id with
      | some v =>
        have := hlast r hrr v hlw
        simp [← this]
      | none => simp
    · subst hb
      rw [hfffalse rfl,
        lastWrite_map_of_id (g := fun f => { f with updatedAt := some now2 }) (fun f => rfl)]
      cases hlw : lastWrite (updateFields m ff false now1 db).1 r.id with
      | some v =>
        have := hlast r hrr v hlw
        simp [← this]
      | none => simp
  · -- row createdAt unchanged
    rw [hrows2, List.map_map]
    apply List.map_congr_left
    intro r hrr
    simp only [Function.comp]
    rcases hbool with hb | hb
    · subst hb
      rw [hfftrue rfl]
      cases hlw : lastWrite (updateFields m ff true now1 db).1 r.id with
      | some v =>
        have := hlast r hrr v hlw
        simp [← this]
      | none => simp
    · subst hb
      rw [hfffalse rfl,
        lastWrite_map_of_id (g := fun f => { f with updatedAt := some now2 }) (fun f => rfl)]
      cases hlw : lastWrite (updateFields m ff false now1 db).1 r.id with
      | some v =>
        have := hlast r hrr v hlw
        simp [← this]
      | none => simp
  · -- field ids unchanged
    rcases hbool with hb | hb
    · subst hb
      rw [hfftrue rfl]
    · subst hb
      rw [hfffalse rfl, List.map_map]
      rfl
  · -- field createdAt unchanged
    rcases hbool with hb | hb
    · subst hb
      rw [hfftrue rfl]
    · subst hb
      rw [hfffalse rfl, List.map_map]
      rfl
  · -- hasRecords: the second call is a complete no-op
    intro ht
    subst ht
    have hrows : (updateFields m (updateFields m ff true now1 db).1 true now2
        (updateFields m ff true now1 db).2).2.rows = (updateFields m ff true now1 db).2.rows := by
      rw [hrows2, hfftrue rfl]
      have : (updateFields m ff true now1 db).2.rows.map (fun r =>
          match lastWrite (updateFields m ff true now1 db).1 r.id with
          | some v => v
          | none => r) = (updateFields m ff true now1 db).2.rows.map (fun r => r) := by
        apply List.map_congr_left
        intro r hrr
        cases hlw : lastWrite (updateFields m ff true now1 db).1 r.id with
        | some v =>
          have := hlast r hrr v hlw
          simp [← this]
        | none => simp
      rw [this, List.map_id']
    apply Prod.ext
    · exact hfftrue rfl
    · apply FieldsDB.ext
      · exact hrows
      · exact hnext

/-- C4 witness: a call on a module with one matched field and one brand
new field, replayed with its own output; hasRecords = false, so only
UpdatedAt advances, and the generator does not move. -/
theorem C4_witness :
    (updateTwice 7 false 100 200 [sampleF1, sampleField]
        { rows := [sampleF1, sampleF2], nextID := 10 }).2.2.nextID =
      (updateTwice 7 false 100 200 [sampleF1, sampleField]
        { rows := [sampleF1, sampleF2], nextID := 10 }).1.2.nextID ∧
    (updateTwice 7 false 100 200 [sampleF1, sampleField]
        { rows := [sampleF1, sampleF2], nextID := 10 }).2.1.map (fun f => f.id) =
      (updateTwice 7 false 100 200 [sampleF1, sampleField]
        { rows := [sampleF1, sampleF2], nextID := 10 }).1.1.map (fun f => f.id) := by
  have := C4_updateFields_idempotent 7 false 100 200 [sampleF1, sampleField]
    { rows := [sampleF1, sampleF2], nextID := 10 } (by decide)
  exact ⟨this.1, this.2.2.2.2.1⟩

/-! ## Claim C5 -/

theorem findOneBy_notFound (tbl : List Module) (ns : Nat) (key : Module → Bool)
    (hwf : ∀ mo ∈ tbl, 0 < mo.id) :
    findOneBy (Except.ok tbl) ns key = Except.error RepoErr.moduleNotFound ↔
      ¬ ∃ mo ∈ tbl, mo.deletedAt = none ∧ key mo = true ∧ mo.namespaceID = ns := by
  have hred : findOneBy (Except.ok tbl) ns key =
      (if ((tbl.filter (fun mo => mo.deletedAt == none && key mo && mo.namespaceID == ns)).headD
            emptyModule).id = 0
        then Except.error RepoErr.moduleNotFound
        else Except.ok ((tbl.filter
            (fun mo => mo.deletedAt == none && key mo && mo.namespaceID == ns)).headD
            emptyModule)) := rfl
  rw [hred]
  rcases hl : tbl.filter (fun mo => mo.deletedAt == none && key mo && mo.namespaceID == ns)
    with _ | ⟨mo0, rest⟩
  · rw [hl]
    simp only [List.headD_nil]
    constructor
    · intro _ hex
      rcases hex with ⟨mo, hmem, hdel, hkey, hns⟩
      have hmf : mo ∈ tbl.filter
          (fun mo => mo.deletedAt == none && key mo && mo.namespaceID == ns) :=
        List.mem_filter.mpr ⟨hmem, by simp [hdel, hkey, hns]⟩
      rw [hl] at hmf
      simp at hmf
    · intro _
      simp [emptyModule]
  · rw [hl]
    simp only [List.headD_cons]
    have hmf : mo0 ∈ tbl.filter
        (fun mo => mo.deletedAt == none && key mo && mo.namespaceID == ns) := by
      rw [hl]
      exact List.mem_cons_self mo0 rest
    have h0 : 0 < mo0.id := hwf mo0 (List.mem_filter.mp hmf).1
    have hpred := (List.mem_filter.mp hmf).2
    simp only [Bool.and_eq_true, beq_iff_eq] at hpred
    constructor
    · intro hcon
      rw [if_neg (by omega)] at hcon
      cases hcon
    · intro hno
      exact absurd ⟨mo0, (List.mem_filter.mp hmf).1, hpred.1.1, hpred.1.2, hpred.2⟩ hno

/-- C5: FindByID, FindByHandle and FindByName return the ModuleNotFound
error exactly when no active (non-soft-deleted) module of the namespace
matches the key — a soft-deleted row with the key still yields the error —
with handle and name compared case-insensitively after trimming the
input, and any storage failure returned unchanged. -/
theorem C5_findOne_notFound (tbl : List Module) (ns moduleID : Nat) (handle nm msg : String)
    (hwf : ∀ mo ∈ tbl, 0 < mo.id) :
    (moduleFindByID (Except.ok tbl) ns moduleID = Except.error RepoErr.moduleNotFound ↔
      ¬ ∃ mo ∈ tbl, mo.deletedAt = none ∧ mo.id = moduleID ∧ mo.namespaceID = ns) ∧
    (moduleFindByHandle (Except.ok tbl) ns handle = Except.error RepoErr.moduleNotFound ↔
      ¬ ∃ mo ∈ tbl, mo.deletedAt = none ∧ lowerStr mo.handle = lowerStr (trimStr handle) ∧
        mo.namespaceID = ns) ∧
    (moduleFindByName (Except.ok tbl) ns nm = Except.error RepoErr.moduleNotFound ↔
      ¬ ∃ mo ∈ tbl, mo.deletedAt = none ∧ lowerStr mo.name = lowerStr (trimStr nm) ∧
        mo.namespaceID = ns) ∧
    moduleFindByID (Except.error msg) ns moduleID = Except.error (RepoErr.storage msg) ∧
    moduleFindByHandle (Except.error msg) ns handle = Except.error (RepoErr.storage msg) ∧
    moduleFindByName (Except.error msg) ns nm = Except.error (RepoErr.storage msg) := by
  refine ⟨?_, ?_, ?_, rfl, rfl, rfl⟩
  · have h := findOneBy_notFound tbl ns (fun mo => mo.id == moduleID) hwf
    simpa [moduleFindByID] using h
  · have h := findOneBy_notFound tbl ns
      (fun mo => lowerStr mo.handle == lowerStr (trimStr handle)) hwf
    simpa [moduleFindByHandle] using h
  · have h := findOneBy_notFound tbl ns
      (fun mo => lowerStr mo.name == lowerStr (trimStr nm)) hwf
    simpa [moduleFindByName] using h

/-- C5 witness: a soft-deleted row still yields NotFound; a trimmed,
case-insensitive handle match succeeds (no NotFound); storage failures
propagate. -/
theorem C5_witness :
    (moduleFindByID (Except.ok [{ sampleModule with deletedAt := some 5 }]) 2 9 =
      Except.error RepoErr.moduleNotFound) ∧
    (moduleFindByHandle (Except.ok [sampleModule]) 2 "  cusTOMer " ≠
      Except.error RepoErr.moduleNotFound) ∧
    moduleFindByName (Except.error "boom") 2 "x" = Except.error (RepoErr.storage "boom") := by
  have h1 := C5_findOne_notFound [{ sampleModule with deletedAt := some 5 }] 2 9 "h" "n" "boom"
    (by decide)
  have h2 := C5_findOne_notFound [sampleModule] 2 9 "  cusTOMer " "n" "boom" (by decide)
  refine ⟨h1.1.mpr (by decide), ?_, h1.2.2.2.2.2⟩
  intro hcon
  have := h2.2.1.mp hcon
  exact this (by decide)

/-! ## Claim C8 -/

/-- C8: DeleteByID soft-deletes by stamping DeletedAt with the current
time on every row matching namespace + id (even an already-deleted one),
and always succeeds — a call matching no row returns no error and leaves
the table unchanged, indistinguishable from a real deletion. -/
theorem C8_deleteByID_soft (tbl : List Module) (ns mid now : Nat) :
    (moduleDeleteByID tbl ns mid now).2 = none ∧
    (moduleDeleteByID tbl ns mid now).1 = tbl.map (fun mo =>
      if mo.namespaceID = ns ∧ mo.id = mid then { mo with deletedAt := some now } else mo) ∧
    ((∀ mo ∈ tbl, ¬ (mo.namespaceID = ns ∧ mo.id = mid)) →
      (moduleDeleteByID tbl ns mid now).1 = tbl) := by
  refine ⟨rfl, ?_, ?_⟩
  · unfold moduleDeleteByID
    apply List.map_congr_left
    intro mo _
    by_cases h1 : mo.namespaceID = ns <;> by_cases h2 : mo.id = mid <;> simp [h1, h2]
  · intro hno
    unfold moduleDeleteByID
    have hmap : tbl.map (fun mo =>
        if mo.namespaceID == ns && mo.id == mid then { mo with deletedAt := some now } else mo) =
        tbl.map (fun mo => mo) := by
      apply List.map_congr_left
      intro mo hmo
      have := hno mo hmo
      by_cases h1 : mo.namespaceID = ns <;> by_cases h2 : mo.id = mid <;>
        simp [h1, h2] at this ⊢
    rw [hmap, List.map_id']

/-- C8 witness: deleting a matching row stamps DeletedAt; deleting with a
non-matching namespace changes nothing and still succeeds. -/
theorem C8_witness :
    (moduleDeleteByID [sampleModule] 3 9 77).2 = none ∧
    (moduleDeleteByID [sampleModule] 3 9 77).1 = [sampleModule] :=
  ⟨(C8_deleteByID_soft [sampleModule] 3 9 77).1,
    (C8_deleteByID_soft [sampleModule] 3 9 77).2.2 (by decide)⟩

/-! ## Claim C9 -/

/-- C9: with NamespaceID 0 the composed WHERE predicate of Find carries no
namespace restriction at all — a module matches irrespective of its
namespace (stated here with no caller-supplied authorization predicate,
which is opaque and could itself inspect the namespace) — because the
namespace-equality predicate is added only when NamespaceID is strictly
positive; conversely a strictly positive NamespaceID forces namespace
equality. -/
theorem C9_find_namespace_zero (f : ModuleFilter) (hns : f.NamespaceID = 0)
    (hread : f.IsReadable = none) :
    (∀ (mo : Module) (n : Nat),
      moduleMatches f { mo with namespaceID := n } = moduleMatches f mo) ∧
    (∀ (g : ModuleFilter) (mo : Module), 0 < g.NamespaceID → moduleMatches g mo = true →
      mo.namespaceID = g.NamespaceID) := by
  constructor
  · intro mo n
    unfold moduleMatches
    rw [hread]
    have h0 : ¬ 0 < f.NamespaceID := by omega
    simp [h0]
  · intro g mo hpos hm
    unfold moduleMatches at hm
    rw [if_pos hpos] at hm
    simp only [Bool.and_eq_true, beq_iff_eq] at hm
    exact hm.1.1.1.1.2

/-- C9 witness: with a zero namespace filter a module matches no matter
which namespace it is moved to. -/
theorem C9_witness :
    moduleMatches { NamespaceID := 0 } { sampleModule with namespaceID := 42 } =
      moduleMatches { NamespaceID := 0 } sampleModule :=
  (C9_find_namespace_zero { NamespaceID := 0 } rfl rfl).1 sampleModule 42

/-! ## Claims C6 and C7 -/

theorem moduleFind_of_ne (tbl : List Module) (fr : ModuleFilter) (hfr : ¬ fr.SortBy = "") :
    moduleFind tbl fr =
      match parseOrder fr.SortBy moduleColumns with
      | Except.error c =>
        { set := [], filter := fr, err := some (RepoErr.orderSpec c), ops := [] }
      | Except.ok obs => moduleFindPage tbl fr obs := by
  unfold moduleFind
  rw [if_neg hfr]

theorem moduleFind_default_sort (tbl : List Module) (f : ModuleFilter) (hs : f.SortBy = "") :
    moduleFind tbl f = moduleFind tbl { f with SortBy := "id ASC" } := by
  unfold moduleFind
  rw [if_pos hs,
    if_neg (show ¬ ({ f with SortBy := "id ASC" } : ModuleFilter).SortBy = "" from
      fun hcon => absurd (show ("id ASC" : String) = "" from hcon) (by decide))]

theorem moduleFind_parse_error (tbl : List Module) (fr : ModuleFilter) (c : String)
    (hfr : ¬ fr.SortBy = "") (herr : parseOrder fr.SortBy moduleColumns = Except.error c) :
    moduleFind tbl fr =
      { set := [], filter := fr, err := some (RepoErr.orderSpec c), ops := [] } := by
  rw [moduleFind_of_ne tbl fr hfr, herr]

theorem moduleFind_parse_ok (tbl : List Module) (fr : ModuleFilter)
    (obs : List (String × Bool)) (hfr : ¬ fr.SortBy = "")
    (hobs : parseOrder fr.SortBy moduleColumns = Except.ok obs) :
    moduleFind tbl fr = moduleFindPage tbl fr obs := by
  rw [moduleFind_of_ne tbl fr hfr, hobs]

theorem parseOrderParts_unknown :
    ∀ (ps : List (List Char)) (cols : List String),
      ps.any (fun p => !(cols.contains (sortColumnOf p))) = true →
      ∃ c : String, parseOrderParts ps cols = Except.error c ∧ cols.contains c = false := by
  intro ps
  induction ps with
  | nil =>
    intro cols hany
    simp at hany
  | cons p ps ih =>
    intro cols hany
    by_cases hc : cols.contains (String.mk (((splitOnChar ' ' p).filter
        (fun w => !w.isEmpty)).headD [])) = true
    · have htail : ps.any (fun q => !(cols.contains (sortColumnOf q))) = true := by
        simp only [List.any_cons] at hany
        cases hh : (!(cols.contains (sortColumnOf p))) with
        | true =>
          exfalso
          unfold sortColumnOf at hh
          rw [hc] at hh
          cases hh
        | false =>
          rw [hh] at hany
          simpa using hany
      rcases ih cols htail with ⟨c, herr, hcf⟩
      refine ⟨c, ?_, hcf⟩
      simp only [parseOrderParts]
      rw [if_pos hc, herr]
    · refine ⟨String.mk (((splitOnChar ' ' p).filter (fun w => !w.isEmpty)).headD []), ?_, ?_⟩
      · simp only [parseOrderParts]
        rw [if_neg hc]
      · simpa using hc

theorem moduleFindPage_zero (tbl : List Module) (f : ModuleFilter)
    (obs : List (String × Bool)) (hz : countRows tbl (moduleMatches f) = 0) :
    moduleFindPage tbl f obs =
      { set := [], filter := { f with Count := 0 }, err := none, ops := [DbOp.countRows] } := by
  unfold moduleFindPage
  rw [if_pos hz, hz]

theorem moduleFindPage_pos (tbl : List Module) (f : ModuleFilter)
    (obs : List (String × Bool)) (hz : ¬ countRows tbl (moduleMatches f) = 0) :
    moduleFindPage tbl f obs =
      { set := fetchPaged (sortModules obs (tbl.filter (moduleMatches f))) f.Page f.PerPage,
        filter := { f with Count := countRows tbl (moduleMatches f) }, err := none,
        ops := [DbOp.countRows, DbOp.fetchPage] } := by
  unfold moduleFindPage
  rw [if_neg hz]

/-- C6: Find computes the total matching count before any row fetch; a
zero count short-circuits to an empty set with Count 0 and performs no
page fetch, and a positive count fetches exactly one page, determined by
the filter's Page and PerPage, of the ordered matching rows; the resolved
filter is returned with Count populated.  The hypothesis states that the
(defaulted) sort specification parses, i.e. Find does not fail on
ordering. -/
theorem C6_find_count_first (tbl : List Module) (f : ModuleFilter)
    (hp : ∃ obs : List (String × Bool),
      parseOrder (if f.SortBy = "" then "id ASC" else f.SortBy) moduleColumns =
        Except.ok obs) :
    ((tbl.filter (moduleMatches f)).length = 0 →
      (moduleFind tbl f).set = [] ∧ (moduleFind tbl f).filter.Count = 0 ∧
      (moduleFind tbl f).err = none ∧ (moduleFind tbl f).ops = [DbOp.countRows]) ∧
    ((tbl.filter (moduleMatches f)).length ≠ 0 →
      ∃ obs : List (String × Bool),
        parseOrder (if f.SortBy = "" then "id ASC" else f.SortBy) moduleColumns =
          Except.ok obs ∧
        (moduleFind tbl f).set =
          fetchPaged (sortModules obs (tbl.filter (moduleMatches f))) f.Page f.PerPage ∧
        (moduleFind tbl f).filter.Count = (tbl.filter (moduleMatches f)).length ∧
        (moduleFind tbl f).err = none ∧
        (moduleFind tbl f).ops = [DbOp.countRows, DbOp.fetchPage]) ∧
    ((moduleFind tbl f).ops ≠ [] → (moduleFind tbl f).ops.head? = some DbOp.countRows) := by
  rcases hp with ⟨obs, hobs⟩
  have hpage : moduleFind tbl f = moduleFindPage tbl
      (if f.SortBy = "" then { f with SortBy := "id ASC" } else f) obs := by
    by_cases hs : f.SortBy = ""
    · rw [if_pos hs] at hobs
      rw [if_pos hs]
      rw [moduleFind_default_sort tbl f hs]
      exact moduleFind_parse_ok tbl { f with SortBy := "id ASC" } obs
        (fun hcon => absurd (show ("id ASC" : String) = "" from hcon) (by decide)) hobs
    · rw [if_neg hs] at hobs
      rw [if_neg hs]
      exact moduleFind_parse_ok tbl f obs hs hobs
  have hmm : moduleMatches (if f.SortBy = "" then { f with SortBy := "id ASC" } else f) =
      moduleMatches f := by
    by_cases hs : f.SortBy = ""
    · rw [if_pos hs]
      funext mo
      rfl
    · rw [if_neg hs]
  have hpg : ((if f.SortBy = "" then { f with SortBy := "id ASC" } else f) :
      ModuleFilter).Page = f.Page := by
    by_cases hs : f.SortBy = ""
    · rw [if_pos hs]
    · rw [if_neg hs]
  have hpp : ((if f.SortBy = "" then { f with SortBy := "id ASC" } else f) :
      ModuleFilter).PerPage = f.PerPage := by
    by_cases hs : f.SortBy = ""
    · rw [if_pos hs]
    · rw [if_neg hs]
  by_cases hz : (tbl.filter (moduleMatches f)).length = 0
  · have hz2 : countRows tbl (moduleMatches
        (if f.SortBy = "" then { f with SortBy := "id ASC" } else f)) = 0 := by
      rw [hmm]
      exact hz
    rw [hpage, moduleFindPage_zero tbl _ obs hz2]
    exact ⟨fun _ => ⟨rfl, rfl, rfl, rfl⟩, fun hnz => absurd hz hnz, fun _ => rfl⟩
  · have hz2 : ¬ countRows tbl (moduleMatches
        (if f.SortBy = "" then { f with SortBy := "id ASC" } else f)) = 0 := by
      rw [hmm]
      exact hz
    rw [hpage, moduleFindPage_pos tbl _ obs hz2]
    refine ⟨fun hzz => absurd hzz hz, fun _ => ⟨obs, hobs, ?_, ?_, rfl, rfl⟩, fun _ => rfl⟩
    · rw [hmm, hpg, hpp]
    · rw [hmm]
      rfl

/-- C6 witness: one matching row; Find counts first and then fetches
exactly one page; on an empty table it stops after the count. -/
theorem C6_witness :
    ((moduleFind ([] : List Module) {}).ops = [DbOp.countRows] ∧
      (moduleFind ([] : List Module) {}).filter.Count = 0) ∧
    ((moduleFind [sampleModule] {}).ops = [DbOp.countRows, DbOp.fetchPage] ∧
      (moduleFind [sampleModule] {}).filter.Count = 1) := by
  have h1 := C6_find_count_first ([] : List Module) {} ⟨[("id", false)], by decide⟩
  have h2 := C6_find_count_first [sampleModule] {} ⟨[("id", false)], by decide⟩
  have hz1 : (([] : List Module).filter (moduleMatches {})).length = 0 := by decide
  have hz2 : ([sampleModule].filter (moduleMatches {})).length ≠ 0 := by decide
  rcases h2.2.1 hz2 with ⟨obs, _, _, hcnt, _, hops⟩
  exact ⟨⟨(h1.1 hz1).2.2.2, (h1.1 hz1).2.1⟩, ⟨hops, by rw [hcnt]; decide⟩⟩

/-- C7: an empty sort specification defaults the ordering to id ascending
(the resolved filter carries "id ASC", which parses to the single pair
(id, ascending) and cannot fail), and a sort specification that references
a column outside the declared module column list makes Find fail with an
ordering error naming such a column, before performing any count or fetch
operation. -/
theorem C7_find_sort (tbl : List Module) (f : ModuleFilter) :
    (f.SortBy = "" →
      (moduleFind tbl f).filter.SortBy = "id ASC" ∧
      parseOrder "id ASC" moduleColumns = Except.ok [("id", false)] ∧
      ∀ c : String, (moduleFind tbl f).err ≠ some (RepoErr.orderSpec c)) ∧
    (f.SortBy ≠ "" → sortMentionsUnknown f.SortBy moduleColumns = true →
      ∃ c : String, moduleColumns.contains c = false ∧
        (moduleFind tbl f).err = some (RepoErr.orderSpec c) ∧
        (moduleFind tbl f).set = [] ∧ (moduleFind tbl f).ops = []) := by
  constructor
  · intro hs
    have hobs : parseOrder "id ASC" moduleColumns = Except.ok [("id", false)] := by decide
    rw [moduleFind_default_sort tbl f hs,
      moduleFind_parse_ok tbl { f with SortBy := "id ASC" } [("id", false)]
        (fun hcon => absurd (show ("id ASC" : String) = "" from hcon) (by decide)) hobs]
    by_cases hz : countRows tbl (moduleMatches { f with SortBy := "id ASC" }) = 0
    · rw [moduleFindPage_zero tbl _ _ hz]
      exact ⟨rfl, by decide, fun c => by simp⟩
    · rw [moduleFindPage_pos tbl _ _ hz]
      exact ⟨rfl, by decide, fun c => by simp⟩
  · intro hs hunk
    rcases parseOrderParts_unknown (splitOnChar ',' f.SortBy.data) moduleColumns hunk
      with ⟨c, herr, hcf⟩
    rw [moduleFind_parse_error tbl f c hs herr]
    exact ⟨c, hcf, rfl, rfl, rfl⟩

/-- C7 witness: the default ordering on an empty sort and the rejection of
an unknown column before any storage operation. -/
theorem C7_witness :
    ((moduleFind [sampleModule] {}).filter.SortBy = "id ASC" ∧
      (moduleFind [sampleModule] {}).err = none) ∧
    ((moduleFind [sampleModule] { SortBy := "bogus DESC" }).err =
        some (RepoErr.orderSpec "bogus") ∧
      (moduleFind [sampleModule] { SortBy := "bogus DESC" }).ops = []) := by
  have h1 := (C7_find_sort [sampleModule] {}).1 rfl
  have h2 := (C7_find_sort [sampleModule] { SortBy := "bogus DESC" }).2 (by decide) (by decide)
  rcases h2 with ⟨c, hcf, herr, _, hops⟩
  have hd : (moduleFind [sampleModule] { SortBy := "bogus DESC" }).err =
      some (RepoErr.orderSpec "bogus") := by decide
  rw [herr] at hd
  simp only [Option.some.injEq, RepoErr.orderSpec.injEq] at hd
  subst hd
  exact ⟨⟨h1.1, by decide⟩, herr, hops⟩

end Crust
